import Mathlib

/-!
# mysh: from the input line to the child processes

A shallow embedding of `parse_tokens`, `parse_line`, `get_executable_paths`,
`check_file_access` and `run_line` from `src/mysh.c`, with `find_in_path` from
`src/myutil.c` and `get_env` from `src/mystdlib.c`.

* Bytes are natural numbers (`' '` = 32, `'&'` = 38, `'.'` = 46, `'/'` = 47, `':'` = 58,
  `'<'` = 60, `'>'` = 62, `'|'` = 124, NUL = 0).
* `char*` values that point into `input_buffer` are offsets into it; `NULL` is `none`.
* `token_list` together with `token_count` is the list of the entries written so far
  (`token_count` is its length); a write at index `TOKEN_SLOTS` or beyond is a fault.
* `clause_list[MAX_CLAUSES][MAX_ARGC + 1]` is the flat row-major array of its
  `CLAUSE_SLOTS` pointers, row `c` starting at index `c * (MAX_ARGC + 1)`.
* A function returns `Except.ok` where the C code returns 1, `Stop.ret0 site` where it
  returns 0 (the site names the `return 0` statement), and `Stop.fault` where it
  accesses memory outside the object it indexes. For `get_executable_paths` and
  `check_file_access` the three outcomes are `Except.ok`, `Halt.ret0 site` and `Halt.fault`.
* An entry of `executable_paths` points into `input_buffer` or into `dir_buffer`. The
  strings of `environ`, and the path names `access` is asked about, are the lists of
  their bytes before the terminator.
* The file system is what `access` answers (`FileSystem`). For `run_line` the operating
  system is the value each `fork()` returns and whether each `execve` succeeds (`Sys`); a
  run of `run_line` is the list of the system calls of one process and the way the process
  leaves the function (`Run`).
-/

namespace Mysh

set_option maxRecDepth 1000000

/-! ## Constants of `mysh.c` -/

/-- Size of input buffer (`#define IN_BUFF_SIZE 256`). -/
abbrev IN_BUFF_SIZE : Nat := 256

/-- Maximum number of arguments per clause (`#define MAX_ARGC 10`). -/
abbrev MAX_ARGC : Nat := 10

/-- Maximum number of clauses per line (`#define MAX_CLAUSES 10`). -/
abbrev MAX_CLAUSES : Nat := 10

/-- Number of entries of `token_list`: `MAX_CLAUSES * (MAX_ARGC + 1) + 3`. -/
abbrev TOKEN_SLOTS : Nat := MAX_CLAUSES * (MAX_ARGC + 1) + 3

/-- Number of pointers in `clause_list[MAX_CLAUSES][MAX_ARGC + 1]`. -/
abbrev CLAUSE_SLOTS : Nat := MAX_CLAUSES * (MAX_ARGC + 1)

/-! ## Outcomes -/

deriving instance DecidableEq for Except

/-- The `return 0` statements of `parse_tokens` and `parse_line`. -/
inductive Ret0 where
  /-- `parse_tokens`, mysh.c:241: operator while in an operator, or before any token. -/
  | operator_misplaced
  /-- `parse_tokens`, mysh.c:273: the loop exits in an operator. -/
  | ends_in_operator
  /-- `parse_line`, mysh.c:165: bare word while `in_redirect`. -/
  | word_after_redirect
  /-- `parse_line`, mysh.c:167: `argument_count > MAX_ARGC`. -/
  | too_many_arguments
  /-- `parse_line`, mysh.c:174: `clause_count >= MAX_CLAUSES - 1`. -/
  | too_many_clauses
  /-- `parse_line`, mysh.c:185: `input_file != NULL`. -/
  | duplicate_input
  /-- `parse_line`, mysh.c:193: `output_file != NULL`. -/
  | duplicate_output
  /-- `parse_line`, mysh.c:211: `&` is the only argument of the clause. -/
  | lone_ampersand
  deriving DecidableEq, Repr

/-- Why a function did not return 1. -/
inductive Stop where
  /-- The function returned 0 at the given statement. -/
  | ret0 (site : Ret0)
  /-- The function read or wrote outside the array or buffer it indexes. -/
  | fault
  deriving DecidableEq, Repr

/-! ## Data model -/

/-- One `char*` entry of `clause_list`. -/
inductive Slot where
  /-- Not written since the `Line` was declared (its value is unknown). -/
  | indeterminate
  /-- `NULL`. -/
  | null
  /-- A pointer to `input_buffer + offset`. -/
  | ptr (offset : Nat)
  deriving DecidableEq, Repr

/-- The `Line` struct of `mysh.c` (the fields the parser uses). -/
structure Line where
  /-- Entries `0 .. token_count - 1` of `token_list`, as offsets into the input buffer. -/
  token_list : List Nat
  /-- The `MAX_CLAUSES * (MAX_ARGC + 1)` pointers of `clause_list`, row-major. -/
  clause_list : List Slot
  /-- Field `clause_count`. -/
  clause_count : Nat
  /-- Field `run_bg`. -/
  run_bg : Nat
  /-- Field `input_file`, `none` for `NULL`. -/
  input_file : Option Nat
  /-- Field `output_file`, `none` for `NULL`. -/
  output_file : Option Nat
  deriving DecidableEq, Repr

/-- Field `token_count`. -/
def Line.token_count (line : Line) : Nat := line.token_list.length

/-- A `Line` as declared in `main` (`Line line;`): nothing has been written to it. -/
def Line.uninit : Line where
  token_list := []
  clause_list := List.replicate CLAUSE_SLOTS Slot.indeterminate
  clause_count := 0
  run_bg := 0
  input_file := none
  output_file := none

/-- Read `mem[k]`; a fault outside the object. -/
def load {α : Type} (mem : List α) (k : Nat) : Except Stop α :=
  match mem[k]? with
  | some v => Except.ok v
  | none => Except.error Stop.fault

/-- Write `mem[k] = v`; a fault outside the object. -/
def store {α : Type} (mem : List α) (k : Nat) (v : α) : Except Stop (List α) :=
  if k < mem.length then Except.ok (mem.set k v) else Except.error Stop.fault

/-! ## `str_len` (myutil.c) -/

/-- Number of bytes before the first NUL of `bytes`; `none` if there is no NUL. -/
def str_len_t : List Nat → Option Nat
  | [] => none
  | c :: rest => if c = 0 then some 0 else (str_len_t rest).map (· + 1)

/-- The call `str_len(input_buffer + str)`: `while (str[len] != '\0') len++;`. The scan running
off the end of the buffer is a fault. -/
def str_len (input_buffer : List Nat) (str : Nat) : Except Stop Nat :=
  match str_len_t (input_buffer.drop str) with
  | some len => Except.ok len
  | none => Except.error Stop.fault

/-! ## `parse_tokens` -/

/-- The locals of `parse_tokens`, the input buffer and the token list. -/
structure TokState where
  /-- The bytes of `input_buffer`. -/
  input_buffer : List Nat
  /-- Entries `0 .. token_count - 1` of `line->token_list`. -/
  token_list : List Nat
  /-- Local `in_word`. -/
  in_word : Bool
  /-- Local `in_operator`. -/
  in_operator : Bool
  /-- Local `operator`. -/
  operator : Nat
  deriving DecidableEq, Repr

/-- One iteration of the loop of `parse_tokens` (mysh.c:231-269) at index `i`. -/
def parse_tokens_step (s : TokState) (i : Nat) : Except Stop TokState := do
  let next ← load s.input_buffer i
  if next = 124 ∨ next = 60 ∨ next = 62 then
    -- case '|': case '<': case '>':
    if s.in_operator = true ∨ s.token_list.length = 0 then
      Except.error (Stop.ret0 Ret0.operator_misplaced)
    else
      -- falls through to case ' '
      let buf ← store s.input_buffer i 0
      pure { s with input_buffer := buf, in_word := false, in_operator := true,
                    operator := next }
  else if next = 32 then
    -- case ' ':
    let buf ← store s.input_buffer i 0
    pure { s with input_buffer := buf, in_word := false }
  else
    -- default:
    if s.in_word = false then
      if s.token_list.length > 0 then
        if TOKEN_SLOTS ≤ s.token_list.length ∨ i = 0 then
          Except.error Stop.fault
        else
          let buf ← store s.input_buffer (i - 1) s.operator
          pure { input_buffer := buf, token_list := s.token_list ++ [i - 1],
                 in_word := true, in_operator := false, operator := 0 }
      else
        pure { s with token_list := s.token_list ++ [i],
                      in_word := true, in_operator := false, operator := 0 }
    else
      pure { s with in_word := true, in_operator := false, operator := 0 }

/-- Iterations `i, i + 1, ..., i + n - 1` of the loop of `parse_tokens`. -/
def parse_tokens_loop : Nat → Nat → TokState → Except Stop TokState
  | 0, _, s => Except.ok s
  | n + 1, i, s => parse_tokens_step s i >>= parse_tokens_loop n (i + 1)

/-- The call `parse_tokens(input_buffer, &line)` (mysh.c:224-276): the buffer and the line after
the call. -/
def parse_tokens (input_buffer : List Nat) (line : Line) :
    Except Stop (List Nat × Line) := do
  let s ← parse_tokens_loop IN_BUFF_SIZE 0
    { input_buffer := input_buffer, token_list := [], in_word := false,
      in_operator := false, operator := 0 }
  if s.in_operator = true then
    Except.error (Stop.ret0 Ret0.ends_in_operator)
  else
    pure (s.input_buffer, { line with token_list := s.token_list })

/-! ## `parse_line` -/

/-- The locals of `parse_line`, the input buffer and the line. -/
structure ParseState where
  /-- The bytes of the input buffer the tokens point into. -/
  input_buffer : List Nat
  /-- The struct behind `line`. -/
  line : Line
  /-- Local `argument_count`. -/
  argument_count : Nat
  /-- Local `clause`, as the index in `clause_list` of the row it points at. -/
  clause : Nat
  /-- Local `in_redirect`. -/
  in_redirect : Bool
  deriving DecidableEq, Repr

/-- The `switch (operator)` of `parse_line` (mysh.c:161-197), for the token string at
`input_buffer + token`; `buf` is the buffer after the operator prefix was cleared. -/
def parse_line_switch (s : ParseState) (operator : Nat) (buf : List Nat) (token : Nat) :
    Except Stop ParseState :=
  if operator = 0 then
    -- case '\0':
    if s.in_redirect = true then
      Except.error (Stop.ret0 Ret0.word_after_redirect)
    else if s.argument_count > MAX_ARGC then
      Except.error (Stop.ret0 Ret0.too_many_arguments)
    else do
      let cl ← store s.line.clause_list (s.clause + s.argument_count) (Slot.ptr token)
      pure { s with input_buffer := buf, line := { s.line with clause_list := cl },
                    argument_count := s.argument_count + 1 }
  else if operator = 124 then
    -- case '|':
    if s.line.clause_count ≥ MAX_CLAUSES - 1 then
      Except.error (Stop.ret0 Ret0.too_many_clauses)
    else do
      let cl ← store s.line.clause_list (s.clause + s.argument_count) Slot.null
      let row := (s.line.clause_count + 1) * (MAX_ARGC + 1)
      let cl ← store cl row (Slot.ptr token)
      pure { input_buffer := buf,
             line := { s.line with clause_list := cl,
                                   clause_count := s.line.clause_count + 1 },
             argument_count := 1, clause := row, in_redirect := false }
  else if operator = 60 then
    -- case '<':
    if s.line.input_file ≠ none then
      Except.error (Stop.ret0 Ret0.duplicate_input)
    else
      pure { s with input_buffer := buf, line := { s.line with input_file := some token },
                    in_redirect := true }
  else if operator = 62 then
    -- case '>':
    if s.line.output_file ≠ none then
      Except.error (Stop.ret0 Ret0.duplicate_output)
    else
      pure { s with input_buffer := buf, line := { s.line with output_file := some token },
                    in_redirect := true }
  else
    pure { s with input_buffer := buf }

/-- One iteration of the token loop of `parse_line` (mysh.c:150-198) at index `i`. -/
def parse_line_step (s : ParseState) (i : Nat) : Except Stop ParseState := do
  let tok ← load s.line.token_list i
  -- if (i > 0) { operator = token[0]; token[0] = '\0'; token++; }
  if i > 0 then
    let operator ← load s.input_buffer tok
    let buf ← store s.input_buffer tok 0
    parse_line_switch s operator buf (tok + 1)
  else
    parse_line_switch s 0 s.input_buffer tok

/-- Iterations `i, i + 1, ..., i + n - 1` of the token loop of `parse_line`. -/
def parse_line_loop : Nat → Nat → ParseState → Except Stop ParseState
  | 0, _, s => Except.ok s
  | n + 1, i, s => parse_line_step s i >>= parse_line_loop n (i + 1)

/-- The state of `parse_line` when it enters its loop (mysh.c:139-147). -/
def parse_line_init (input_buffer : List Nat) (line : Line) : ParseState where
  input_buffer := input_buffer
  line := { line with clause_count := 0, run_bg := 0, input_file := none,
                      output_file := none }
  argument_count := 0
  clause := 0
  in_redirect := false

/-- The part of `parse_line` after its loop (mysh.c:200-219): the ampersand check and
the termination of the last clause. -/
def parse_line_finish (s : ParseState) : Except Stop (List Nat × Line) := do
  -- char* last_argument = clause[argument_count - 1];
  if s.clause + s.argument_count = 0 then Except.error Stop.fault
  let slot ← load s.line.clause_list (s.clause + s.argument_count - 1)
  match slot with
  | Slot.ptr last_argument =>
    let last_argument_len ← str_len s.input_buffer last_argument
    if last_argument + last_argument_len = 0 then Except.error Stop.fault
    let last ← load s.input_buffer (last_argument + last_argument_len - 1)
    if last = 38 then
      let buf ← store s.input_buffer (last_argument + last_argument_len - 1) 0
      if last_argument_len = 1 then
        if s.argument_count = 1 then
          Except.error (Stop.ret0 Ret0.lone_ampersand)
        else
          let cl ← store s.line.clause_list (s.clause + s.argument_count - 1) Slot.null
          pure (buf, { s.line with run_bg := 1, clause_list := cl,
                                   clause_count := s.line.clause_count + 1 })
      else
        let cl ← store s.line.clause_list (s.clause + s.argument_count) Slot.null
        pure (buf, { s.line with run_bg := 1, clause_list := cl,
                                 clause_count := s.line.clause_count + 1 })
    else
      let cl ← store s.line.clause_list (s.clause + s.argument_count) Slot.null
      pure (s.input_buffer, { s.line with clause_list := cl,
                                          clause_count := s.line.clause_count + 1 })
  | _ => Except.error Stop.fault

/-- The call `parse_line(&line)` (mysh.c:138-220): the buffer and the line after the call. -/
def parse_line (input_buffer : List Nat) (line : Line) : Except Stop (List Nat × Line) :=
  parse_line_loop line.token_count 0 (parse_line_init input_buffer line) >>=
    parse_line_finish

/-- The two parsing calls of `main` (mysh.c:85 and mysh.c:95), one after the other.
Between them `handle_command` advances the entries of `token_list` and, when the line is
not a built-in command, moves them back, so `parse_line` finds them as `parse_tokens`
left them. -/
def parse (input_buffer : List Nat) (line : Line) : Except Stop (List Nat × Line) :=
  parse_tokens input_buffer line >>= fun r => parse_line r.1 r.2

/-! ## Reading the result -/

/-- The bytes of the NUL-terminated string at `input_buffer + str`. -/
def c_string (input_buffer : List Nat) (str : Nat) : Option (List Nat) :=
  (str_len_t (input_buffer.drop str)).map fun len => (input_buffer.drop str).take len

/-- The pointers of a `NULL`-terminated argument vector that starts at the head of
`slots`; `none` if an entry that was never written, or the end of `clause_list`, comes
before the `NULL`. -/
def read_argv : List Slot → Option (List Nat)
  | Slot.ptr p :: rest => (read_argv rest).map (p :: ·)
  | Slot.null :: _ => some []
  | _ => none

/-- The argument vector `line->clause_list[i]` as `execve` reads it: its strings up to
the first `NULL`. -/
def clause_argv (input_buffer : List Nat) (line : Line) (i : Nat) :
    Option (List (List Nat)) :=
  (read_argv (line.clause_list.drop (i * (MAX_ARGC + 1)))).bind fun ptrs =>
    ptrs.mapM (c_string input_buffer)

/-- The string a pointer field (`input_file`, `output_file`) points at; `none` for
`NULL`. -/
def file_name (input_buffer : List Nat) (file : Option Nat) : Option (List Nat) :=
  file.bind (c_string input_buffer)

/-- The bytes of a string literal. -/
def bytes (s : String) : List Nat := s.toList.map Char.toNat

/-- The input buffer after `read_input` stored `text` and its terminator into a buffer
that held `old`: the text, a NUL, and the bytes of `old` beyond them
(mystdio.c:40-62, for a text shorter than the buffer). -/
def read_into (old : List Nat) (text : List Nat) : List Nat :=
  text ++ 0 :: old.drop (text.length + 1)

/-- An input buffer of NUL bytes. -/
def zero_buffer : List Nat := List.replicate IN_BUFF_SIZE 0

/-- The input buffer that holds the line `s`, its terminator, and NUL bytes after it. -/
def input_line (s : String) : List Nat := read_into zero_buffer (bytes s)

/-- What the later phases see of a parsed line: the argument strings of each clause,
the redirection targets and the background flag. -/
structure Pipeline where
  /-- The argument vectors of clauses `0 .. clause_count - 1`. -/
  clauses : List (Option (List (List Nat)))
  /-- The string `input_file` points at, `none` for `NULL`. -/
  input_file : Option (List Nat)
  /-- The string `output_file` points at, `none` for `NULL`. -/
  output_file : Option (List Nat)
  /-- Field `run_bg`. -/
  run_bg : Nat
  deriving DecidableEq, Repr

/-- The pipeline description held by the buffer and the line after a parse. -/
def describe (r : List Nat × Line) : Pipeline where
  clauses := (List.range r.2.clause_count).map (clause_argv r.1 r.2)
  input_file := file_name r.1 r.2.input_file
  output_file := file_name r.1 r.2.output_file
  run_bg := r.2.run_bg

/-! ## Specification vocabulary -/

/-- The operator characters `'|'`, `'<'` and `'>'`. -/
def is_operator (c : Nat) : Prop := c = 124 ∨ c = 60 ∨ c = 62

instance (c : Nat) : Decidable (is_operator c) := by unfold is_operator; infer_instance

/-- A byte that `parse_tokens` handles in its `default` case. -/
def is_word_byte (c : Nat) : Prop := c ≠ 32 ∧ c ≠ 124 ∧ c ≠ 60 ∧ c ≠ 62

/-- The state of `parse_tokens` inside a word. -/
def in_word_state (input_buffer token_list : List Nat) : TokState where
  input_buffer := input_buffer
  token_list := token_list
  in_word := true
  in_operator := false
  operator := 0

/-- A word of a command line: not empty, without space, operator or NUL. -/
def is_word (w : List Nat) : Prop := w ≠ [] ∧ ∀ c ∈ w, is_word_byte c ∧ c ≠ 0

/-- Words, each preceded by the byte `sep`. -/
def sep_words (sep : Nat) : List (List Nat) → List Nat
  | [] => []
  | w :: ws => sep :: w ++ sep_words sep ws

/-- The offsets of the bytes that precede the words of `sep_words` laid out from offset
`base`. -/
def word_offs (base : Nat) : List (List Nat) → List Nat
  | [] => []
  | w :: ws => base :: word_offs (base + 1 + w.length) ws

/-- Clauses (a first word and the words after it), each preceded by the bytes `x`, `y`
and `z`, their words separated by `sep`. -/
def sep_clauses (x y z sep : Nat) : List (List Nat × List (List Nat)) → List Nat
  | [] => []
  | p :: ps => x :: y :: z :: p.1 ++ sep_words sep p.2 ++ sep_clauses x y z sep ps

/-- The offsets of the bytes that precede the words of `sep_clauses` laid out from
offset `base`. -/
def clause_offs (base : Nat) : List (List Nat × List (List Nat)) → List Nat
  | [] => []
  | p :: ps => (base + 2) :: word_offs (base + 3 + p.1.length) p.2 ++
      clause_offs (base + 3 + p.1.length + (sep_words 0 p.2).length) ps

/-- The number of tokens of clauses. -/
def clause_tokens : List (List Nat × List (List Nat)) → Nat
  | [] => 0
  | p :: ps => 1 + p.2.length + clause_tokens ps

/-- The state of `parse_line` between two tokens of a line without redirection: `rows`
clauses are closed and occupy the slots `closed`, the current clause holds the pointers
`cur`, and the slots `free` come after them. -/
def row_state (input_buffer : List Nat) (line : Line) (closed : List Slot) (cur : List Nat)
    (free : List Slot) (rows : Nat) : ParseState where
  input_buffer := input_buffer
  line := { line with clause_list := closed ++ cur.map Slot.ptr ++ free,
                      clause_count := rows, run_bg := 0, input_file := none,
                      output_file := none }
  argument_count := cur.length
  clause := rows * (MAX_ARGC + 1)
  in_redirect := false

/-- The slots `closed` hold the argument vectors `argvs`, one per row of `clause_list`:
the pointers, `NULL`, and the rest of the row. -/
def rows_hold : List Slot → List (List Nat) → Prop
  | closed, [] => closed = []
  | closed, a :: as => ∃ junk rest, closed = a.map Slot.ptr ++ Slot.null :: junk ++ rest ∧
      a.length + 1 + junk.length = MAX_ARGC + 1 ∧ rows_hold rest as

/-- The pointers to the words of `sep_clauses` laid out from offset `base`, by clause. -/
def clause_ptrs (base : Nat) : List (List Nat × List (List Nat)) → List (List Nat)
  | [] => []
  | p :: ps => ((base + 3) :: (word_offs (base + 3 + p.1.length) p.2).map (· + 1)) ::
      clause_ptrs (base + 3 + p.1.length + (sep_words 0 p.2).length) ps

instance (c : Nat) : Decidable (is_word_byte c) := by unfold is_word_byte; infer_instance

instance (w : List Nat) : Decidable (is_word w) := by unfold is_word; infer_instance

/-- The strings of `parts` with `sep` between them. -/
def join_with (sep : List Nat) : List (List Nat) → List Nat
  | [] => []
  | [x] => x
  | x :: y :: rest => x ++ sep ++ join_with sep (y :: rest)

/-- The text of a command line: the clauses separated by ` | `, the words of a clause by
single spaces. -/
def pipeline_text (clauses : List (List (List Nat))) : List Nat :=
  join_with [32, 124, 32] (clauses.map (join_with [32]))

/-- The operand of the ampersand check of `parse_line` (mysh.c:200-203), for the state `s`
its loop ends in: the local `argument_count`, and the offset into `input_buffer` of the byte
`last_argument[last_argument_len - 1]` the check reads, as an integer. -/
def last_argument_end (s : ParseState) : Except Stop (Nat × Int) := do
  -- char* last_argument = clause[argument_count - 1];
  if s.clause + s.argument_count = 0 then Except.error Stop.fault
  let slot ← load s.line.clause_list (s.clause + s.argument_count - 1)
  match slot with
  | Slot.ptr last_argument =>
    let last_argument_len ← str_len s.input_buffer last_argument
    pure (s.argument_count, (last_argument : Int) + (last_argument_len : Int) - 1)
  | _ => Except.error Stop.fault

/-! ## `run_line` -/

/-- Index of the read end of a pipe (`#define READ_END 0`). -/
abbrev READ_END : Nat := 0

/-- Index of the write end of a pipe (`#define WRITE_END 1`). -/
abbrev WRITE_END : Nat := 1

/-- Descriptor of the standard input. -/
abbrev STDIN_FILENO : Nat := 0

/-- Descriptor of the standard output. -/
abbrev STDOUT_FILENO : Nat := 1

/-- A call `run_line` makes to the operating system. A pipe descriptor is named by the cell
of the local `pipes` that holds it, a child by the value `fork` returned for it. -/
inductive Call where
  /-- `pipe(pipes[i])`. -/
  | pipe (i : Nat)
  /-- `fork()`. -/
  | fork
  /-- `error("Failed to fork process.\n")`. -/
  | error
  /-- `close(pipes[i][side])`. -/
  | close (i side : Nat)
  /-- `dup2(pipes[i][side], newfd)`. -/
  | dup2_pipe (i side newfd : Nat)
  /-- `open(line->output_file, O_WRONLY | O_CREAT, 0666)`. -/
  | open_output
  /-- `open(line->input_file, O_RDONLY)`. -/
  | open_input
  /-- `dup2(fd, newfd)` for the local `fd` of the `open` before it. -/
  | dup2_fd (newfd : Nat)
  /-- `execve(file_path, arguments, envp)` for clause `i`. -/
  | execve (i : Nat)
  /-- `_exit(status)`. -/
  | exit (status : Nat)
  /-- `waitpid(pid, NULL, 0)`. -/
  | waitpid (pid : Int)
  deriving DecidableEq, Repr

/-- How the process that runs `run_line` leaves it. -/
inductive RunEnd where
  /-- `return value;`. -/
  | returned (value : Nat)
  /-- `_exit(status)`, in a child. -/
  | exited (status : Nat)
  /-- A successful `execve`, in a child: the target program runs in place of the shell. -/
  | replaced
  /-- An access outside `pipes` or `pids`. -/
  | fault
  deriving DecidableEq, Repr

/-- A run of `run_line` in one process: the calls made, in order, and how the run ended.
For a child the calls are those of the parent up to the `fork` that created the child,
followed by its own. -/
structure Run where
  /-- The calls made, first to last. -/
  calls : List Call
  /-- How the run ended. -/
  result : RunEnd
  deriving DecidableEq, Repr

/-- What the operating system answers to `run_line`. -/
structure Sys where
  /-- The value of `fork()` in iteration `i`: -1 on failure, 0 in the child, the pid of the
  child in the parent. -/
  fork : Nat → Int
  /-- Whether `execve` of clause `i` replaces the process (it returns otherwise). -/
  execve : Nat → Bool

/-- The calls made so far and the local `pids` of `run_line` (`none` is an entry not yet
written). -/
structure RunState where
  /-- The calls made, first to last. -/
  calls : List Call
  /-- Local `int pids[MAX_CLAUSES - 1]`. -/
  pids : List (Option Int)
  deriving DecidableEq, Repr

/-- The calls by which the child of clause `i` connects its standard output (mysh.c:395-403):
to the write end of `pipes[i]` if the clause is not the last, else to the output file if
there is one. -/
def child_stdout (line : Line) (i : Nat) : List Call :=
  if i + 1 ≠ line.clause_count then
    [Call.close i READ_END, Call.dup2_pipe i WRITE_END STDOUT_FILENO]
  else if line.output_file ≠ none then
    [Call.open_output, Call.dup2_fd STDOUT_FILENO]
  else []

/-- The calls by which the child of clause `i` connects its standard input (mysh.c:404-412):
to the read end of `pipes[i - 1]` if the clause is not the first, else to the input file if
there is one. -/
def child_stdin (line : Line) (i : Nat) : List Call :=
  if i ≠ 0 then
    [Call.close (i - 1) WRITE_END, Call.dup2_pipe (i - 1) READ_END STDIN_FILENO]
  else if line.input_file ≠ none then
    [Call.open_input, Call.dup2_fd STDIN_FILENO]
  else []

/-- One iteration of the first loop of `run_line` (mysh.c:377-427), for clause `i`. An index
of `pipes[MAX_CLAUSES - 1][2]` or `pids[MAX_CLAUSES - 1]` outside the array is a fault. -/
def run_line_step (line : Line) (sys : Sys) (s : RunState) (i : Nat) :
    Except Run RunState :=
  -- int first_clause = i == 0; int last_clause = i == line->clause_count - 1;
  let first_clause : Bool := i = 0
  let last_clause : Bool := i + 1 = line.clause_count
  -- if (!last_clause) pipe(pipes[i]);
  if last_clause = false ∧ MAX_CLAUSES - 1 ≤ i then
    Except.error ⟨s.calls, RunEnd.fault⟩
  else
    let calls := s.calls ++ (if last_clause = false then [Call.pipe i] else []) ++ [Call.fork]
    let pid := sys.fork i
    if pid = -1 then
      Except.error ⟨calls ++ [Call.error], RunEnd.returned 0⟩
    else if pid = 0 then
      -- Child process.
      let calls := calls ++ child_stdout line i
      if first_clause = false ∧ MAX_CLAUSES - 1 ≤ i - 1 then
        Except.error ⟨calls, RunEnd.fault⟩
      else
        let calls := calls ++ child_stdin line i ++ [Call.execve i]
        if sys.execve i = true then
          Except.error ⟨calls, RunEnd.replaced⟩
        else
          -- _exit(0); // Terminate process if execve fails.
          Except.error ⟨calls ++ [Call.exit 0], RunEnd.exited 0⟩
    else
      -- pids[i] = pid;
      match store s.pids i (some pid) with
      | Except.error _ => Except.error ⟨calls, RunEnd.fault⟩
      | Except.ok pids =>
        let calls := calls ++ (if last_clause = false then [Call.close i WRITE_END] else [])
        if first_clause = false ∧ MAX_CLAUSES - 1 ≤ i - 1 then
          Except.error ⟨calls, RunEnd.fault⟩
        else
          Except.ok ⟨calls ++ (if first_clause = false then [Call.close (i - 1) READ_END]
                               else []), pids⟩

/-- The first loop of `run_line`: `n` iterations from clause `i`. -/
def run_line_loop (line : Line) (sys : Sys) : Nat → Nat → RunState → Except Run RunState
  | 0, _, s => Except.ok s
  | n + 1, i, s => run_line_step line sys s i >>= run_line_loop line sys n (i + 1)

/-- The second loop of `run_line` (mysh.c:431-432): `n` iterations of
`waitpid(pids[i], NULL, 0)` from clause `i`. -/
def run_line_wait : Nat → Nat → RunState → Except Run RunState
  | 0, _, s => Except.ok s
  | n + 1, i, s =>
    match load s.pids i with
    | Except.ok (some pid) =>
      run_line_wait n (i + 1) { s with calls := s.calls ++ [Call.waitpid pid] }
    | _ => Except.error ⟨s.calls, RunEnd.fault⟩

/-- The call `run_line(&line)` (mysh.c:357-436), in the process that `sys` describes. -/
def run_line (line : Line) (sys : Sys) : Run :=
  match run_line_loop line sys line.clause_count 0
      ⟨[], List.replicate (MAX_CLAUSES - 1) none⟩ with
  | Except.error run => run
  | Except.ok s =>
    if line.run_bg = 0 then
      match run_line_wait line.clause_count 0 s with
      | Except.error run => run
      | Except.ok s => ⟨s.calls, RunEnd.returned 1⟩
    else ⟨s.calls, RunEnd.returned 1⟩

/-- The calls of the parent in iteration `i` of the first loop of `run_line`, for a line of
`clause_count` clauses. -/
def clause_calls (clause_count i : Nat) : List Call :=
  (if i + 1 = clause_count then [] else [Call.pipe i]) ++ [Call.fork] ++
    (if i + 1 = clause_count then [] else [Call.close i WRITE_END]) ++
    (if i = 0 then [] else [Call.close (i - 1) READ_END])

/-! ## `get_executable_paths` and `check_file_access` -/

/-- Size of file directory buffer (`#define DIR_BUFF_SIZE 256`). -/
abbrev DIR_BUFF_SIZE : Nat := 256

/-- The `return 0` statements of `get_executable_paths` and `check_file_access`. -/
inductive Refusal where
  /-- `get_executable_paths`, mysh.c:308: no path was found. -/
  | file_not_found
  /-- `check_file_access`, mysh.c:322: `access(file_dir, X_OK) != 0`. -/
  | missing_executable_access
  /-- `check_file_access`, mysh.c:333: `access(file_dir, F_OK) != 0` for the input file. -/
  | input_not_found
  /-- `check_file_access`, mysh.c:338: `access(file_dir, R_OK) != 0` for the input file. -/
  | missing_read_access
  /-- `check_file_access`, mysh.c:349: the output file exists and
  `access(file_dir, W_OK) != 0`. -/
  | missing_write_access
  deriving DecidableEq, Repr

/-- Why `get_executable_paths` or `check_file_access` does not return 1. -/
inductive Halt where
  /-- It returns 0, at the given `return 0`. -/
  | ret0 (site : Refusal)
  /-- It accesses memory outside the object it indexes, or through `NULL`. -/
  | fault
  deriving DecidableEq, Repr

/-- What `access` answers: for the path name `p`, whether `access(p, F_OK)`,
`access(p, R_OK)`, `access(p, W_OK)` and `access(p, X_OK)` return 0. -/
structure FileSystem where
  /-- The call `access(p, F_OK) == 0`: `p` exists. -/
  f_ok : List Nat → Bool
  /-- The call `access(p, R_OK) == 0`: `p` is readable. -/
  r_ok : List Nat → Bool
  /-- The call `access(p, W_OK) == 0`: `p` is writable. -/
  w_ok : List Nat → Bool
  /-- The call `access(p, X_OK) == 0`: `p` is executable. -/
  x_ok : List Nat → Bool

/-- An entry of `executable_paths`. -/
inductive PathPtr where
  /-- An entry that was never written. -/
  | indeterminate
  /-- A pointer into `input_buffer`, at the given offset. -/
  | input (offset : Nat)
  /-- A pointer into `dir_buffer`, at the given offset. -/
  | dir (offset : Nat)
  deriving DecidableEq, Repr

/-- What `get_executable_paths` writes: the global `dir_buffer`, the field
`executable_paths` of the line, and the local `buff_trav` as an offset into `dir_buffer`. -/
structure Resolver where
  /-- Global `char dir_buffer[DIR_BUFF_SIZE]`. -/
  dir_buffer : List Nat
  /-- Field `char* executable_paths[MAX_CLAUSES]`. -/
  executable_paths : List PathPtr
  /-- Local `buff_trav`. -/
  buff_trav : Nat
  deriving DecidableEq, Repr

/-- The call `get_env(name)` (mystdlib.c:8-18) on the strings of `environ`: the rest of the
first string that begins with `name`, from one byte after the name; `none` for `NULL`. A
string that is the name itself gives a pointer past its terminator, a fault. -/
def get_env (environ : List (List Nat)) (name : List Nat) :
    Except Halt (Option (List Nat)) :=
  match environ.find? (fun e => name.isPrefixOf e) with
  | none => Except.ok none
  | some e =>
    if name.length < e.length then Except.ok (some (e.drop (name.length + 1)))
    else Except.error Halt.fault

/-- The call `str_chr(str, c)` (myutil.c:50-55) on the bytes of a string: the offset of the
first `c`, `none` for `NULL`. -/
def str_chr : List Nat → Nat → Option Nat
  | [], _ => none
  | x :: rest, c => if x = c then some 0 else (str_chr rest c).map (· + 1)

/-- Write `data` at `mem[dest]` and after, as `str_copy` and the two byte stores of
`find_in_path` do; a fault if a byte falls outside `mem`. -/
def write_at (mem : List Nat) (dest : Nat) (data : List Nat) : Except Halt (List Nat) :=
  if dest + data.length ≤ mem.length then
    Except.ok (mem.take dest ++ data ++ mem.drop (dest + data.length))
  else Except.error Halt.fault

/-- The loop of `find_in_path` (myutil.c:98-115), for the rest `path` of `$PATH`: whether a
candidate exists, and `dir_buffer` with the last candidate written at `out_buffer`. The
first argument bounds the number of iterations; `path.length + 1` is enough, as each
iteration drops a colon from `path`. -/
def find_in_path_loop (fs : FileSystem) (dir : List Nat) (out_buffer : Nat) :
    Nat → List Nat → List Nat → Except Halt (Bool × List Nat)
  | 0, _, _ => Except.error Halt.fault
  | fuel + 1, path, dir_buffer =>
    let next_colon := str_chr path 58
    -- int len = next_colon == NULL ? str_len(path) : next_colon - path;
    let len := match next_colon with
      | none => path.length
      | some k => k
    -- the bytes of path[0 .. len), '/', dir and '\0', copied to out_buffer
    match write_at dir_buffer out_buffer (path.take len ++ 47 :: dir ++ [0]) with
    | Except.error e => Except.error e
    | Except.ok dir_buffer =>
      if fs.f_ok (path.take len ++ 47 :: dir) = true then
        Except.ok (true, dir_buffer)
      else
        match next_colon with
        | none => Except.ok (false, dir_buffer)
        | some k => find_in_path_loop fs dir out_buffer fuel (path.drop (k + 1)) dir_buffer

/-- The call `find_in_path(dir, out_buffer)` (myutil.c:92-118), `out_buffer` an offset into
`dir_buffer`. `str_chr` on the `NULL` that `get_env` returns when `PATH` is not set is a
fault. -/
def find_in_path (fs : FileSystem) (environ : List (List Nat)) (dir : List Nat)
    (dir_buffer : List Nat) (out_buffer : Nat) : Except Halt (Bool × List Nat) :=
  match get_env environ (bytes "PATH") with
  | Except.error e => Except.error e
  | Except.ok none => Except.error Halt.fault
  | Except.ok (some path) =>
    find_in_path_loop fs dir out_buffer (path.length + 1) path dir_buffer

/-- One iteration of the loop of `get_executable_paths` (mysh.c:283-310), for clause `i`. -/
def get_executable_paths_step (fs : FileSystem) (environ : List (List Nat))
    (input_buffer : List Nat) (line : Line) (r : Resolver) (i : Nat) :
    Except Halt Resolver :=
  -- char* file_dir = line->clause_list[i][0];
  match line.clause_list[i * (MAX_ARGC + 1)]? with
  | some (Slot.ptr file_dir) =>
    match c_string input_buffer file_dir with
    | none => Except.error Halt.fault
    | some name =>
      if fs.f_ok name = true then
        -- line->executable_paths[i] = file_dir; continue;
        if i < r.executable_paths.length then
          Except.ok { r with executable_paths := r.executable_paths.set i (PathPtr.input file_dir) }
        else Except.error Halt.fault
      else
        -- if (file_dir[0] != '/' && file_dir[0] != '.')
        if name.head? ≠ some 47 ∧ name.head? ≠ some 46 then
          match find_in_path fs environ name r.dir_buffer r.buff_trav with
          | Except.error e => Except.error e
          | Except.ok (true, dir_buffer) =>
            -- line->executable_paths[i] = buff_trav; buff_trav += str_len(buff_trav) + 1;
            if i < r.executable_paths.length then
              match str_len_t (dir_buffer.drop r.buff_trav) with
              | none => Except.error Halt.fault
              | some len =>
                Except.ok { dir_buffer := dir_buffer,
                            executable_paths := r.executable_paths.set i (PathPtr.dir r.buff_trav),
                            buff_trav := r.buff_trav + len + 1 }
            else Except.error Halt.fault
          | Except.ok (false, _) => Except.error (Halt.ret0 Refusal.file_not_found)
        else Except.error (Halt.ret0 Refusal.file_not_found)
  | _ => Except.error Halt.fault

/-- The loop of `get_executable_paths`: `n` iterations from clause `i`. -/
def get_executable_paths_loop (fs : FileSystem) (environ : List (List Nat))
    (input_buffer : List Nat) (line : Line) : Nat → Nat → Resolver → Except Halt Resolver
  | 0, _, r => Except.ok r
  | n + 1, i, r =>
    get_executable_paths_step fs environ input_buffer line r i >>=
      get_executable_paths_loop fs environ input_buffer line n (i + 1)

/-- The call `get_executable_paths(&line)` (mysh.c:279-312), for the contents `dir_buffer`
and `executable_paths` have before it. -/
def get_executable_paths (fs : FileSystem) (environ : List (List Nat))
    (input_buffer : List Nat) (line : Line) (dir_buffer : List Nat)
    (executable_paths : List PathPtr) : Except Halt Resolver :=
  get_executable_paths_loop fs environ input_buffer line line.clause_count 0
    { dir_buffer := dir_buffer, executable_paths := executable_paths, buff_trav := 0 }

/-- The string `executable_paths[i]` points at. -/
def path_string (input_buffer : List Nat) (r : Resolver) (i : Nat) : Option (List Nat) :=
  match r.executable_paths[i]? with
  | some (PathPtr.input p) => c_string input_buffer p
  | some (PathPtr.dir p) => c_string r.dir_buffer p
  | _ => none

/-- The first loop of `check_file_access` (mysh.c:316-324): `n` iterations from clause `i`. -/
def check_executables (fs : FileSystem) (input_buffer : List Nat) (r : Resolver) :
    Nat → Nat → Except Halt Unit
  | 0, _ => Except.ok ()
  | n + 1, i =>
    match path_string input_buffer r i with
    | none => Except.error Halt.fault
    | some file_dir =>
      if fs.x_ok file_dir = true then check_executables fs input_buffer r n (i + 1)
      else Except.error (Halt.ret0 Refusal.missing_executable_access)

/-- The call `check_file_access(&line)` (mysh.c:314-354). -/
def check_file_access (fs : FileSystem) (input_buffer : List Nat) (line : Line)
    (r : Resolver) : Except Halt Unit := do
  check_executables fs input_buffer r line.clause_count 0
  -- if (line->input_file != NULL)
  match line.input_file with
  | none => pure ()
  | some input_file =>
    match c_string input_buffer input_file with
    | none => Except.error Halt.fault
    | some file_dir =>
      if fs.f_ok file_dir = false then
        Except.error (Halt.ret0 Refusal.input_not_found)
      else if fs.r_ok file_dir = false then
        Except.error (Halt.ret0 Refusal.missing_read_access)
      else pure ()
  -- if (line->output_file != NULL)
  match line.output_file with
  | none => pure ()
  | some output_file =>
    match c_string input_buffer output_file with
    | none => Except.error Halt.fault
    | some file_dir =>
      if fs.f_ok file_dir = true ∧ fs.w_ok file_dir = false then
        Except.error (Halt.ret0 Refusal.missing_write_access)
      else pure ()

/-- The directories of `$PATH`: the pieces of `path` between its colons, in order. -/
def path_dirs : List Nat → List (List Nat)
  | [] => [[]]
  | c :: rest =>
    if c = 58 then [] :: path_dirs rest
    else
      match path_dirs rest with
      | d :: ds => (c :: d) :: ds
      | [] => [[c]]

/-- The first directory of `dirs` in which `name` exists. -/
def first_match (fs : FileSystem) (name : List Nat) (dirs : List (List Nat)) :
    Option (List Nat) :=
  dirs.find? fun d => fs.f_ok (d ++ 47 :: name)

/-- The loop of `find_in_path` as a recursion over the directories of `$PATH`: each
candidate is written at `out_buffer`, and the first that exists ends the search. -/
def try_dirs (fs : FileSystem) (dir : List Nat) (out_buffer : Nat) :
    List (List Nat) → List Nat → Except Halt (Bool × List Nat)
  | [], dir_buffer => Except.ok (false, dir_buffer)
  | d :: ds, dir_buffer =>
    match write_at dir_buffer out_buffer (d ++ 47 :: dir ++ [0]) with
    | Except.error e => Except.error e
    | Except.ok dir_buffer =>
      if fs.f_ok (d ++ 47 :: dir) = true then Except.ok (true, dir_buffer)
      else
        match ds with
        | [] => Except.ok (false, dir_buffer)
        | _ :: _ => try_dirs fs dir out_buffer ds dir_buffer

/-- A file system with the given existing paths, all of them readable, writable and
executable. -/
def files (paths : List String) : FileSystem where
  f_ok := fun p => (paths.map bytes).contains p
  r_ok := fun p => (paths.map bytes).contains p
  w_ok := fun p => (paths.map bytes).contains p
  x_ok := fun p => (paths.map bytes).contains p

/-- The buffer and the line that `parse` leaves for the input line `s`; the buffer as read
and the uninitialised line if `parse` does not return 1. -/
def parsed (s : String) : List Nat × Line :=
  match parse (input_line s) Line.uninit with
  | Except.ok r => r
  | Except.error _ => (input_line s, Line.uninit)

/-- The contents of `dir_buffer` and `executable_paths` when the shell starts: zero bytes,
and entries never written. -/
def Resolver.start : Resolver where
  dir_buffer := List.replicate DIR_BUFF_SIZE 0
  executable_paths := List.replicate MAX_CLAUSES PathPtr.indeterminate
  buff_trav := 0

/-! ## Lemmas -/

theorem load_eq_ok {α : Type} {mem : List α} {k : Nat} {v : α} :
    load mem k = Except.ok v ↔ mem[k]? = some v := by
  unfold load
  cases h : mem[k]? <;> simp

theorem store_eq_ok {α : Type} {mem mem' : List α} {k : Nat} {v : α} :
    store mem k v = Except.ok mem' ↔ k < mem.length ∧ mem' = mem.set k v := by
  unfold store
  split <;> simp_all [eq_comm]

theorem store_of_lt {α : Type} {mem : List α} {k : Nat} (v : α) (h : k < mem.length) :
    store mem k v = Except.ok (mem.set k v) := by
  unfold store
  rw [if_pos h]

theorem getElem?_mid {α : Type} (done : List α) (c : α) (rest : List α) :
    (done ++ c :: rest)[done.length]? = some c := by
  rw [List.getElem?_append_right (le_refl _)]
  simp

theorem set_mid {α : Type} (done : List α) (c v : α) (rest : List α) :
    (done ++ c :: rest).set done.length v = done ++ v :: rest := by
  rw [List.set_append_right _ _ (le_refl _)]
  simp

theorem load_mid {α : Type} (done : List α) (c : α) (rest : List α) :
    load (done ++ c :: rest) done.length = Except.ok c :=
  load_eq_ok.mpr (getElem?_mid done c rest)

theorem store_mid {α : Type} (done : List α) (c v : α) (rest : List α) :
    store (done ++ c :: rest) done.length v = Except.ok (done ++ v :: rest) := by
  rw [store_of_lt v (by simp), set_mid]

/-- The step of `parse_tokens` at a space. -/
theorem parse_tokens_step_space (done rest toks : List Nat) (w o : Bool) (op : Nat) :
    parse_tokens_step ⟨done ++ 32 :: rest, toks, w, o, op⟩ done.length
      = Except.ok ⟨done ++ 0 :: rest, toks, false, o, op⟩ := by
  unfold parse_tokens_step
  simp [load_mid, store_mid, bind, Except.bind, pure, Except.pure]

/-- The step of `parse_tokens` at an operator that follows a word. -/
theorem parse_tokens_step_operator (done rest toks : List Nat) (w : Bool) (op c : Nat)
    (hc : is_operator c) (ht : toks ≠ []) :
    parse_tokens_step ⟨done ++ c :: rest, toks, w, false, op⟩ done.length
      = Except.ok ⟨done ++ 0 :: rest, toks, false, true, c⟩ := by
  have hlen : ¬ toks.length = 0 := by simpa using ht
  unfold parse_tokens_step
  unfold is_operator at hc
  simp [load_mid, store_mid, bind, Except.bind, pure, Except.pure, hc, hlen]

/-- The step of `parse_tokens` at a byte inside a word. -/
theorem parse_tokens_step_inside (done rest toks : List Nat) (c : Nat)
    (hc : is_word_byte c) :
    parse_tokens_step (in_word_state (done ++ c :: rest) toks) done.length
      = Except.ok (in_word_state (done ++ c :: rest) toks) := by
  obtain ⟨h1, h2, h3, h4⟩ := hc
  unfold parse_tokens_step in_word_state
  simp [load_mid, bind, Except.bind, pure, Except.pure, h1, h2, h3, h4]

/-- The step of `parse_tokens` at the first byte of the first word. -/
theorem parse_tokens_step_first (done rest : List Nat) (c : Nat) (hc : is_word_byte c) :
    parse_tokens_step ⟨done ++ c :: rest, [], false, false, 0⟩ done.length
      = Except.ok (in_word_state (done ++ c :: rest) [done.length]) := by
  obtain ⟨h1, h2, h3, h4⟩ := hc
  unfold parse_tokens_step in_word_state
  simp [load_mid, bind, Except.bind, pure, Except.pure, h1, h2, h3, h4]

/-- The step of `parse_tokens` at the first byte of a later word: the byte before it receives the
pending operator and becomes the start of the token. -/
theorem parse_tokens_step_next (done rest toks : List Nat) (x c op : Nat) (o : Bool)
    (hc : is_word_byte c) (ht : toks ≠ []) (hcap : toks.length < TOKEN_SLOTS) :
    parse_tokens_step ⟨done ++ x :: c :: rest, toks, false, o, op⟩ (done.length + 1)
      = Except.ok (in_word_state (done ++ op :: c :: rest) (toks ++ [done.length])) := by
  obtain ⟨h1, h2, h3, h4⟩ := hc
  have hlen : 0 < toks.length := List.length_pos.mpr ht
  have hload : load (done ++ x :: c :: rest) (done.length + 1) = Except.ok c := by
    have := load_mid (done ++ [x]) c rest
    simpa using this
  have hcap' : ¬ TOKEN_SLOTS ≤ toks.length := by omega
  unfold parse_tokens_step in_word_state
  simp only [hload, bind, Except.bind, pure, Except.pure, h1, h2, h3, h4, or_self, if_false,
    hlen, gt_iff_lt, if_true, hcap', Nat.add_one_ne_zero, Nat.add_sub_cancel, store_mid]

theorem parse_tokens_loop_add (a b i : Nat) (s : TokState) :
    parse_tokens_loop (a + b) i s
      = parse_tokens_loop a i s >>= parse_tokens_loop b (i + a) := by
  induction a generalizing i s with
  | zero => simp [parse_tokens_loop, bind, Except.bind]
  | succ a ih =>
    rw [show a + 1 + b = (a + b) + 1 by omega]
    simp only [parse_tokens_loop]
    cases parse_tokens_step s i with
    | error e => rfl
    | ok s1 =>
      simp only [bind, Except.bind]
      have := ih (i + 1) s1
      simp only [bind, Except.bind] at this
      rw [this, show i + 1 + a = i + (a + 1) by omega]

/-- The run of `parse_tokens` over the rest of a word. -/
theorem parse_tokens_loop_word (w : List Nat) (hw : ∀ c ∈ w, is_word_byte c) :
    ∀ (done rest toks : List Nat),
      parse_tokens_loop w.length done.length (in_word_state (done ++ w ++ rest) toks)
        = Except.ok (in_word_state (done ++ w ++ rest) toks) := by
  induction w with
  | nil => intro done rest toks; simp [parse_tokens_loop]
  | cons c w ih =>
    intro done rest toks
    have hstep := parse_tokens_step_inside done (w ++ rest) toks c (hw c (List.mem_cons_self _ _))
    have := ih (fun c' hc' => hw c' (List.mem_cons_of_mem _ hc')) (done ++ [c]) rest toks
    simp only [List.length_cons, parse_tokens_loop, List.append_assoc, List.cons_append,
      List.length_append, List.length_singleton, List.nil_append, List.singleton_append]
      at this hstep ⊢
    rw [hstep]
    exact this

theorem sep_words_length (a b : Nat) (ws : List (List Nat)) :
    (sep_words a ws).length = (sep_words b ws).length := by
  induction ws with
  | nil => rfl
  | cons w ws ih => simp [sep_words, ih]

theorem sep_clauses_length (x y z sep x' y' z' sep' : Nat)
    (ps : List (List Nat × List (List Nat))) :
    (sep_clauses x y z sep ps).length = (sep_clauses x' y' z' sep' ps).length := by
  induction ps with
  | nil => rfl
  | cons p ps ih => simp [sep_clauses, ih, sep_words_length sep sep']

theorem parse_tokens_loop_succ_ok {n i : Nat} {s s1 : TokState}
    (h : parse_tokens_step s i = Except.ok s1) :
    parse_tokens_loop (n + 1) i s = parse_tokens_loop n (i + 1) s1 := by
  simp [parse_tokens_loop, h, bind, Except.bind]

theorem parse_tokens_loop_add_ok {a b i : Nat} {s s1 : TokState}
    (h : parse_tokens_loop a i s = Except.ok s1) :
    parse_tokens_loop (a + b) i s = parse_tokens_loop b (i + a) s1 := by
  rw [parse_tokens_loop_add, h]
  rfl

theorem parse_tokens_loop_chain {a b i j : Nat} {s s1 : TokState}
    {r : Except Stop TokState} (h1 : parse_tokens_loop a i s = Except.ok s1)
    (hj : j = i + a) (h2 : parse_tokens_loop b j s1 = r) :
    parse_tokens_loop (a + b) i s = r := by
  subst hj
  rw [parse_tokens_loop_add_ok h1, h2]

/-- The run of `parse_tokens` over a space and the word after it. -/
theorem parse_tokens_loop_sep_word (w : List Nat) (hw : is_word w)
    (done rest toks : List Nat) (ht : toks ≠ []) (hcap : toks.length < TOKEN_SLOTS) :
    parse_tokens_loop (1 + w.length) done.length
        (in_word_state (done ++ 32 :: w ++ rest) toks)
      = Except.ok (in_word_state (done ++ 0 :: w ++ rest) (toks ++ [done.length])) := by
  obtain ⟨hne, hb⟩ := hw
  cases w with
  | nil => exact absurd rfl hne
  | cons c w =>
    have h1 := parse_tokens_step_space done (c :: w ++ rest) toks true false 0
    have h2 := parse_tokens_step_next done (w ++ rest) toks 0 c 0 false
      (hb c (List.mem_cons_self _ _)).1 ht hcap
    have h3 := parse_tokens_loop_word w
      (fun c' hc' => (hb c' (List.mem_cons_of_mem _ hc')).1) (done ++ [0, c]) rest
      (toks ++ [done.length])
    rw [show 1 + (c :: w).length = (w.length + 1) + 1 by simp; omega]
    have e1 : in_word_state (done ++ 32 :: (c :: w) ++ rest) toks
        = ⟨done ++ 32 :: (c :: w ++ rest), toks, true, false, 0⟩ := by
      simp [in_word_state]
    rw [e1]
    simp only [List.cons_append, List.append_assoc, List.nil_append, List.length_append,
      List.length_cons, List.length_nil] at h1 h2 h3 ⊢
    rw [parse_tokens_loop_succ_ok h1, parse_tokens_loop_succ_ok h2]
    exact h3

/-- The run of `parse_tokens` over words that each follow one space. -/
theorem parse_tokens_loop_words (ws : List (List Nat)) (hws : ∀ w ∈ ws, is_word w) :
    ∀ (done rest toks : List Nat), toks ≠ [] → toks.length + ws.length ≤ TOKEN_SLOTS →
      parse_tokens_loop (sep_words 32 ws).length done.length
          (in_word_state (done ++ sep_words 32 ws ++ rest) toks)
        = Except.ok (in_word_state (done ++ sep_words 0 ws ++ rest)
            (toks ++ word_offs done.length ws)) := by
  induction ws with
  | nil => intro done rest toks _ _; simp [sep_words, word_offs, parse_tokens_loop]
  | cons w ws ih =>
    intro done rest toks ht hcap
    simp only [List.length_cons] at hcap
    have h1 := parse_tokens_loop_sep_word w (hws w (List.mem_cons_self _ _)) done
      (sep_words 32 ws ++ rest) toks ht (by omega)
    have h2 := ih (fun w' hw' => hws w' (List.mem_cons_of_mem _ hw')) (done ++ 0 :: w) rest
      (toks ++ [done.length]) (by simp) (by simp; omega)
    have e : (sep_words 32 (w :: ws)).length = (1 + w.length) + (sep_words 32 ws).length := by
      simp [sep_words]; omega
    rw [e]
    simp only [sep_words, List.append_assoc, List.cons_append] at h1 h2 ⊢
    rw [parse_tokens_loop_add_ok h1]
    simp only [List.length_append, List.length_cons, word_offs] at h2 ⊢
    rw [show done.length + (1 + w.length) = done.length + (w.length + 1) by omega, h2]
    simp [Nat.add_assoc, Nat.add_comm 1 w.length]

/-- The run of `parse_tokens` over ` | ` and the first word of the clause after it. -/
theorem parse_tokens_loop_pipe_word (w : List Nat) (hw : is_word w)
    (done rest toks : List Nat) (ht : toks ≠ []) (hcap : toks.length < TOKEN_SLOTS) :
    parse_tokens_loop (3 + w.length) done.length
        (in_word_state (done ++ 32 :: 124 :: 32 :: w ++ rest) toks)
      = Except.ok (in_word_state (done ++ 0 :: 0 :: 124 :: w ++ rest)
          (toks ++ [done.length + 2])) := by
  obtain ⟨hne, hb⟩ := hw
  cases w with
  | nil => exact absurd rfl hne
  | cons c w =>
    have h1 := parse_tokens_step_space done (124 :: 32 :: c :: w ++ rest) toks true false 0
    have h2 := parse_tokens_step_operator (done ++ [0]) (32 :: c :: w ++ rest) toks false 0
      124 (Or.inl rfl) ht
    have h3 := parse_tokens_step_space (done ++ [0, 0]) (c :: w ++ rest) toks false true 124
    have h4 := parse_tokens_step_next (done ++ [0, 0]) (w ++ rest) toks 0 c 124 true
      (hb c (List.mem_cons_self _ _)).1 ht hcap
    have h5 := parse_tokens_loop_word w
      (fun c' hc' => (hb c' (List.mem_cons_of_mem _ hc')).1) (done ++ [0, 0, 124, c]) rest
      (toks ++ [done.length + 2])
    rw [show 3 + (c :: w).length = (((w.length + 1) + 1) + 1) + 1 by simp; omega]
    have e1 : in_word_state (done ++ 32 :: 124 :: 32 :: (c :: w) ++ rest) toks
        = ⟨done ++ 32 :: 124 :: 32 :: c :: (w ++ rest), toks, true, false, 0⟩ := by
      simp [in_word_state]
    rw [e1]
    simp only [List.cons_append, List.append_assoc, List.nil_append, List.length_append,
      List.length_cons, List.length_nil, Nat.zero_add, Nat.reduceAdd, Nat.add_assoc]
      at h1 h2 h3 h4 h5 ⊢
    rw [parse_tokens_loop_succ_ok h1, parse_tokens_loop_succ_ok h2,
      parse_tokens_loop_succ_ok h3, parse_tokens_loop_succ_ok h4]
    exact h5

theorem word_offs_length (base : Nat) (ws : List (List Nat)) :
    (word_offs base ws).length = ws.length := by
  induction ws generalizing base with
  | nil => rfl
  | cons w ws ih => simp [word_offs, ih]

theorem clause_offs_length (base : Nat) (ps : List (List Nat × List (List Nat))) :
    (clause_offs base ps).length = clause_tokens ps := by
  induction ps generalizing base with
  | nil => rfl
  | cons p ps ih => simp [clause_offs, clause_tokens, ih, word_offs_length]; omega

/-- The run of `parse_tokens` over clauses that each follow ` | `. -/
theorem parse_tokens_loop_clauses (ps : List (List Nat × List (List Nat)))
    (hps : ∀ p ∈ ps, is_word p.1 ∧ ∀ w ∈ p.2, is_word w) :
    ∀ (done rest toks : List Nat), toks ≠ [] →
      toks.length + clause_tokens ps ≤ TOKEN_SLOTS →
      parse_tokens_loop (sep_clauses 32 124 32 32 ps).length done.length
          (in_word_state (done ++ sep_clauses 32 124 32 32 ps ++ rest) toks)
        = Except.ok (in_word_state (done ++ sep_clauses 0 0 124 0 ps ++ rest)
            (toks ++ clause_offs done.length ps)) := by
  induction ps with
  | nil => intro done rest toks _ _; simp [sep_clauses, clause_offs, parse_tokens_loop]
  | cons p ps ih =>
    intro done rest toks ht hcap
    obtain ⟨hp1, hp2⟩ := hps p (List.mem_cons_self _ _)
    simp only [clause_tokens] at hcap
    have h1 := parse_tokens_loop_pipe_word p.1 hp1 done
      (sep_words 32 p.2 ++ sep_clauses 32 124 32 32 ps ++ rest) toks ht (by omega)
    have h2 := parse_tokens_loop_words p.2 hp2 (done ++ 0 :: 0 :: 124 :: p.1)
      (sep_clauses 32 124 32 32 ps ++ rest) (toks ++ [done.length + 2]) (by simp)
      (by simp; omega)
    have h3 := ih (fun q hq => hps q (List.mem_cons_of_mem _ hq))
      (done ++ 0 :: 0 :: 124 :: p.1 ++ sep_words 0 p.2) rest
      (toks ++ [done.length + 2] ++ word_offs (done.length + 3 + p.1.length) p.2) (by simp)
      (by simp [word_offs_length]; omega)
    have e : (sep_clauses 32 124 32 32 (p :: ps)).length
        = (3 + p.1.length) + ((sep_words 32 p.2).length
            + (sep_clauses 32 124 32 32 ps).length) := by
      simp [sep_clauses]; omega
    rw [e]
    simp only [sep_clauses, clause_offs, List.cons_append, List.append_assoc,
      List.nil_append, List.length_append, List.length_cons, List.length_nil]
      at h1 h2 h3 ⊢
    rw [show done.length + (p.1.length + 1 + 1 + 1) = done.length + 3 + p.1.length by omega]
      at h2
    rw [show done.length + (p.1.length + (sep_words 0 p.2).length + 1 + 1 + 1)
      = done.length + 3 + p.1.length + (sep_words 0 p.2).length by omega] at h3
    exact parse_tokens_loop_chain h1 (by omega)
      (parse_tokens_loop_chain h2 (by rw [sep_words_length 32 0]) h3)

/-- The run of `parse_tokens` over the first word of a line. -/
theorem parse_tokens_loop_first_word (w rest : List Nat) (hw : is_word w) :
    parse_tokens_loop w.length 0 ⟨w ++ rest, [], false, false, 0⟩
      = Except.ok (in_word_state (w ++ rest) [0]) := by
  obtain ⟨hne, hb⟩ := hw
  cases w with
  | nil => exact absurd rfl hne
  | cons c w =>
    have h1 := parse_tokens_step_first [] (w ++ rest) c (hb c (List.mem_cons_self _ _)).1
    have h2 := parse_tokens_loop_word w
      (fun c' hc' => (hb c' (List.mem_cons_of_mem _ hc')).1) [c] rest [0]
    simp only [List.cons_append, List.append_assoc, List.nil_append, List.length_cons,
      List.length_nil, Nat.zero_add] at h1 h2 ⊢
    rw [parse_tokens_loop_succ_ok h1]
    exact h2

/-- The tokens `parse_tokens` finds in a line of clauses separated by ` | `, of words
separated by single spaces, followed by bytes that are neither space nor operator: the
spaces become NUL and the byte before the first word of each later clause is `'|'`. -/
theorem parse_tokens_pipeline (w0 : List Nat) (ws0 : List (List Nat))
    (ps : List (List Nat × List (List Nat))) (tail : List Nat) (line : Line)
    (hw0 : is_word w0) (hws0 : ∀ w ∈ ws0, is_word w)
    (hps : ∀ p ∈ ps, is_word p.1 ∧ ∀ w ∈ p.2, is_word w)
    (htail : ∀ c ∈ tail, is_word_byte c)
    (hcap : 1 + ws0.length + clause_tokens ps ≤ TOKEN_SLOTS)
    (hlen : (w0 ++ sep_words 32 ws0 ++ sep_clauses 32 124 32 32 ps ++ tail).length
      = IN_BUFF_SIZE) :
    parse_tokens (w0 ++ sep_words 32 ws0 ++ sep_clauses 32 124 32 32 ps ++ tail) line
      = Except.ok (w0 ++ sep_words 0 ws0 ++ sep_clauses 0 0 124 0 ps ++ tail,
          { line with token_list := [0] ++ word_offs w0.length ws0 ++
              clause_offs (w0.length + (sep_words 0 ws0).length) ps }) := by
  have h1 := parse_tokens_loop_first_word w0
    (sep_words 32 ws0 ++ sep_clauses 32 124 32 32 ps ++ tail) hw0
  have h2 := parse_tokens_loop_words ws0 hws0 w0 (sep_clauses 32 124 32 32 ps ++ tail) [0]
    (by simp) (by simp; omega)
  have h3 := parse_tokens_loop_clauses ps hps (w0 ++ sep_words 0 ws0) tail
    ([0] ++ word_offs w0.length ws0) (by simp) (by simp [word_offs_length]; omega)
  have h4 := parse_tokens_loop_word tail htail (w0 ++ sep_words 0 ws0 ++ sep_clauses 0 0 124 0 ps)
    [] ([0] ++ word_offs w0.length ws0 ++ clause_offs (w0.length + (sep_words 0 ws0).length) ps)
  have hsplit : IN_BUFF_SIZE = w0.length + ((sep_words 32 ws0).length +
      ((sep_clauses 32 124 32 32 ps).length + tail.length)) := by
    rw [← hlen]
    simp only [List.length_append]
    omega
  simp only [List.append_assoc, List.append_nil, List.length_append] at h1 h2 h3 h4 ⊢
  rw [show w0.length + ((sep_words 0 ws0).length + (sep_clauses 0 0 124 0 ps).length)
    = w0.length + (sep_words 0 ws0).length + (sep_clauses 32 124 32 32 ps).length by
    rw [sep_clauses_length 32 124 32 32 0 0 124 0, Nat.add_assoc]] at h4
  have hloop := parse_tokens_loop_chain h1 (Nat.zero_add _).symm
    (parse_tokens_loop_chain h2 (by rw [sep_words_length 32 0])
      (parse_tokens_loop_chain h3 rfl h4))
  unfold parse_tokens
  rw [hsplit, hloop]
  simp [bind, Except.bind, pure, Except.pure, in_word_state]

theorem parse_line_init_eq (input_buffer : List Nat) (line : Line) :
    parse_line_init input_buffer line
      = row_state input_buffer line [] [] line.clause_list 0 := by
  simp [parse_line_init, row_state]

/-- The step of `parse_line` at the first token of a line. -/
theorem parse_line_step_first (buf : List Nat) (line : Line) (q : Slot) (free : List Slot)
    (t : Nat) (ht : line.token_list[0]? = some t) :
    parse_line_step (row_state buf line [] [] (q :: free) 0) 0
      = Except.ok (row_state buf line [] [t] free 0) := by
  have hload : load line.token_list 0 = Except.ok t := load_eq_ok.mpr ht
  have hstore := store_mid ([] : List Slot) q (Slot.ptr t) free
  simp only [List.nil_append, List.length_nil] at hstore
  unfold parse_line_step parse_line_switch
  simp [row_state, hload, hstore, bind, Except.bind, pure, Except.pure]

/-- The step of `parse_line` at a later token without operator prefix. -/
theorem parse_line_step_word (done rest : List Nat) (line : Line) (closed : List Slot)
    (cur : List Nat) (q : Slot) (free : List Slot) (rows i : Nat) (hi : 0 < i)
    (ht : line.token_list[i]? = some done.length)
    (hclosed : closed.length = rows * (MAX_ARGC + 1)) (hcur : cur.length ≤ MAX_ARGC) :
    parse_line_step (row_state (done ++ 0 :: rest) line closed cur (q :: free) rows) i
      = Except.ok (row_state (done ++ 0 :: rest) line closed (cur ++ [done.length + 1])
          free rows) := by
  have hload : load line.token_list i = Except.ok done.length := load_eq_ok.mpr ht
  have hstore := store_mid (closed ++ cur.map Slot.ptr) q (Slot.ptr (done.length + 1)) free
  simp only [List.length_append, List.length_map, hclosed, List.append_assoc] at hstore
  have hargs : ¬ cur.length > MAX_ARGC := by omega
  unfold parse_line_step parse_line_switch
  simp only [row_state, hload, bind, Except.bind, hi, if_true, load_mid, store_mid,
    Bool.false_eq_true, if_false, hargs, hstore, pure, Except.pure, List.map_append,
    List.map_cons, List.map_nil, List.append_assoc, List.singleton_append,
    List.length_append, List.length_singleton]

/-- The step of `parse_line` at a token with the prefix `'|'`: the current clause is closed and a
new one opened on the next row. -/
theorem parse_line_step_pipe (done rest : List Nat) (line : Line) (closed : List Slot)
    (cur : List Nat) (q q' : Slot) (junk free : List Slot) (rows i : Nat) (hi : 0 < i)
    (ht : line.token_list[i]? = some done.length)
    (hclosed : closed.length = rows * (MAX_ARGC + 1))
    (hjunk : cur.length + 1 + junk.length = MAX_ARGC + 1)
    (hrows : rows < MAX_CLAUSES - 1) :
    parse_line_step
        (row_state (done ++ 124 :: rest) line closed cur (q :: junk ++ q' :: free) rows) i
      = Except.ok (row_state (done ++ 0 :: rest) line
          (closed ++ cur.map Slot.ptr ++ Slot.null :: junk) [done.length + 1] free
          (rows + 1)) := by
  have hload : load line.token_list i = Except.ok done.length := load_eq_ok.mpr ht
  have hstore1 := store_mid (closed ++ cur.map Slot.ptr) q Slot.null (junk ++ q' :: free)
  have hstore2 := store_mid (closed ++ cur.map Slot.ptr ++ Slot.null :: junk) q'
    (Slot.ptr (done.length + 1)) free
  have hlen2 : (closed ++ cur.map Slot.ptr ++ Slot.null :: junk).length
      = (rows + 1) * (MAX_ARGC + 1) := by
    simp only [List.length_append, List.length_map, List.length_cons, hclosed]
    simp only [MAX_ARGC] at hjunk ⊢
    omega
  rw [hlen2] at hstore2
  simp only [List.length_append, List.length_map, hclosed] at hstore1
  have hrows' : ¬ rows ≥ MAX_CLAUSES - 1 := by omega
  unfold parse_line_step parse_line_switch
  simp only [row_state, hload, bind, Except.bind, hi, if_true, load_mid, store_mid,
    hrows', if_false, pure, Except.pure, List.cons_append, List.append_assoc] at hstore1 hstore2 ⊢
  simp only [show (124 : Nat) ≠ 0 by decide, if_false, if_true, hstore1, hstore2,
    List.map_cons, List.map_nil, List.length_singleton, List.singleton_append]

theorem rows_hold_length : ∀ (argvs : List (List Nat)) (closed : List Slot),
    rows_hold closed argvs → closed.length = argvs.length * (MAX_ARGC + 1) := by
  intro argvs
  induction argvs with
  | nil => intro closed h; simp only [rows_hold] at h; simp [h]
  | cons a as ih =>
    intro closed h
    obtain ⟨junk, rest, rfl, hlen, hrest⟩ := h
    have := ih rest hrest
    simp only [List.length_append, List.length_map, List.length_cons, this]
    simp only [MAX_ARGC] at hlen ⊢
    omega

theorem rows_hold_append : ∀ (argvs : List (List Nat)) (closed : List Slot) (a : List Nat)
    (junk : List Slot), rows_hold closed argvs → a.length + 1 + junk.length = MAX_ARGC + 1 →
    rows_hold (closed ++ a.map Slot.ptr ++ Slot.null :: junk) (argvs ++ [a]) := by
  intro argvs
  induction argvs with
  | nil =>
    intro closed a junk h hlen
    simp only [rows_hold] at h
    subst h
    exact ⟨junk, [], by simp, hlen, rfl⟩
  | cons b bs ih =>
    intro closed a junk h hlen
    obtain ⟨junk', rest, rfl, hlen', hrest⟩ := h
    refine ⟨junk', rest ++ a.map Slot.ptr ++ Slot.null :: junk, by simp, hlen', ?_⟩
    exact ih rest a junk hrest hlen

theorem read_argv_ptrs (a : List Nat) (rest : List Slot) :
    read_argv (a.map Slot.ptr ++ Slot.null :: rest) = some a := by
  induction a with
  | nil => rfl
  | cons p a ih => simp [read_argv, ih]

/-- Row `c` of slots that hold argument vectors reads as the `c`-th vector. -/
theorem rows_hold_read : ∀ (argvs : List (List Nat)) (closed : List Slot) (c : Nat)
    (more : List Slot), rows_hold closed argvs → ∀ (h : c < argvs.length),
    read_argv ((closed ++ more).drop (c * (MAX_ARGC + 1))) = some argvs[c] := by
  intro argvs
  induction argvs with
  | nil => intro closed c more _ h; simp at h
  | cons a as ih =>
    intro closed c more hh h
    obtain ⟨junk, rest, rfl, hlen, hrest⟩ := hh
    cases c with
    | zero =>
      simp only [Nat.zero_mul, List.drop_zero, List.append_assoc, List.cons_append,
        List.getElem_cons_zero]
      exact read_argv_ptrs a _
    | succ c =>
      have hrow : (a.map Slot.ptr ++ Slot.null :: junk).length = MAX_ARGC + 1 := by
        simp only [List.length_append, List.length_map, List.length_cons]
        omega
      have : (a.map Slot.ptr ++ Slot.null :: junk ++ rest ++ more).drop
          ((c + 1) * (MAX_ARGC + 1)) = (rest ++ more).drop (c * (MAX_ARGC + 1)) := by
        rw [List.append_assoc, show (c + 1) * (MAX_ARGC + 1)
          = (a.map Slot.ptr ++ Slot.null :: junk).length + c * (MAX_ARGC + 1) by
            rw [hrow]; ring]
        exact List.drop_append _
      rw [this]
      simpa using ih rest c more hrest (by simpa using h)

theorem parse_line_loop_succ_ok {n i : Nat} {s s1 : ParseState}
    (h : parse_line_step s i = Except.ok s1) :
    parse_line_loop (n + 1) i s = parse_line_loop n (i + 1) s1 := by
  simp [parse_line_loop, h, bind, Except.bind]

theorem parse_line_loop_add (a b i : Nat) (s : ParseState) :
    parse_line_loop (a + b) i s = parse_line_loop a i s >>= parse_line_loop b (i + a) := by
  induction a generalizing i s with
  | zero => simp [parse_line_loop, bind, Except.bind]
  | succ a ih =>
    rw [show a + 1 + b = (a + b) + 1 by omega]
    simp only [parse_line_loop]
    cases parse_line_step s i with
    | error e => rfl
    | ok s1 =>
      simp only [bind, Except.bind]
      have := ih (i + 1) s1
      simp only [bind, Except.bind] at this
      rw [this, show i + 1 + a = i + (a + 1) by omega]

theorem parse_line_loop_chain {a b i j : Nat} {s s1 : ParseState}
    {r : Except Stop ParseState} (h1 : parse_line_loop a i s = Except.ok s1)
    (hj : j = i + a) (h2 : parse_line_loop b j s1 = r) :
    parse_line_loop (a + b) i s = r := by
  subst hj
  rw [parse_line_loop_add, h1]
  exact h2

/-- The run of `parse_line` over the tokens of words that follow single spaces: each becomes the
next argument of the current clause. -/
theorem parse_line_loop_words (line : Line) (ws : List (List Nat)) :
    ∀ (done rest : List Nat) (closed : List Slot) (cur : List Nat) (free1 free2 : List Slot)
      (rows : Nat) (pre post : List Nat),
      line.token_list = pre ++ word_offs done.length ws ++ post → pre ≠ [] →
      closed.length = rows * (MAX_ARGC + 1) → cur.length + ws.length ≤ MAX_ARGC →
      free1.length = ws.length →
      parse_line_loop ws.length pre.length
          (row_state (done ++ sep_words 0 ws ++ rest) line closed cur (free1 ++ free2) rows)
        = Except.ok (row_state (done ++ sep_words 0 ws ++ rest) line closed
            (cur ++ (word_offs done.length ws).map (· + 1)) free2 rows) := by
  induction ws with
  | nil =>
    intro done rest closed cur free1 free2 rows pre post _ _ _ _ hfree
    have : free1 = [] := List.length_eq_zero.mp hfree
    simp [parse_line_loop, word_offs, sep_words, this]
  | cons w ws ih =>
    intro done rest closed cur free1 free2 rows pre post htl hpre hclosed hcur hfree
    cases free1 with
    | nil => simp at hfree
    | cons q free1 =>
      simp only [List.length_cons] at hcur hfree
      have hstep := parse_line_step_word done (w ++ sep_words 0 ws ++ rest) line closed cur q
        (free1 ++ free2) rows pre.length (List.length_pos.mpr hpre)
        (by
          rw [htl]
          simp only [word_offs, List.cons_append, List.append_assoc]
          exact getElem?_mid _ _ _) hclosed (by omega)
      have hlen : (done ++ 0 :: w).length = done.length + 1 + w.length := by
        simp; omega
      have hrec := ih (done ++ 0 :: w) rest closed (cur ++ [done.length + 1]) free1 free2 rows
        (pre ++ [done.length]) post (by rw [htl, hlen]; simp [word_offs]) (by simp) hclosed
        (by simp; omega) (by omega)
      rw [hlen] at hrec
      simp only [sep_words, word_offs, List.cons_append, List.append_assoc, List.map_cons,
        List.length_cons, List.length_append, List.length_nil, List.nil_append] at hstep hrec ⊢
      rw [parse_line_loop_succ_ok hstep]
      exact hrec

theorem exists_split {α : Type} (l : List α) (n : Nat) (h : n ≤ l.length) :
    ∃ a b, l = a ++ b ∧ a.length = n :=
  ⟨l.take n, l.drop n, (List.take_append_drop n l).symm, by simp [h]⟩

theorem exists_cons {α : Type} (l : List α) (h : 1 ≤ l.length) : ∃ q r, l = q :: r := by
  cases l with
  | nil => simp at h
  | cons q r => exact ⟨q, r, rfl⟩

theorem clause_ptrs_length (base : Nat) (ps : List (List Nat × List (List Nat))) :
    (clause_ptrs base ps).length = ps.length := by
  induction ps generalizing base with
  | nil => rfl
  | cons p ps ih => simp [clause_ptrs, ih]

/-- The run of `parse_line` over the tokens of clauses that follow ` | `: each `'|'` prefix closes
the current clause with `NULL` and opens the next row. -/
theorem parse_line_loop_clauses (line : Line) (ps : List (List Nat × List (List Nat))) :
    ∀ (done rest : List Nat) (closed : List Slot) (cur : List Nat) (free : List Slot)
      (argvs : List (List Nat)) (pre post : List Nat),
      line.token_list = pre ++ clause_offs done.length ps ++ post → pre ≠ [] →
      rows_hold closed argvs → cur.length ≤ MAX_ARGC →
      (∀ p ∈ ps, 1 + p.2.length ≤ MAX_ARGC) →
      argvs.length + ps.length ≤ MAX_CLAUSES - 1 →
      closed.length + cur.length + free.length = CLAUSE_SLOTS →
      ∃ closed' cur' free' argvs',
        parse_line_loop (clause_tokens ps) pre.length
            (row_state (done ++ sep_clauses 0 0 124 0 ps ++ rest) line closed cur free
              argvs.length)
          = Except.ok (row_state (done ++ sep_clauses 0 0 0 0 ps ++ rest) line closed' cur'
              free' argvs'.length) ∧
        rows_hold closed' argvs' ∧
        argvs' ++ [cur'] = argvs ++ [cur] ++ clause_ptrs done.length ps ∧
        cur'.length ≤ MAX_ARGC ∧
        closed'.length + cur'.length + free'.length = CLAUSE_SLOTS := by
  induction ps with
  | nil =>
    intro done rest closed cur free argvs pre post _ _ hrows hcur _ _ htotal
    exact ⟨closed, cur, free, argvs, by simp [clause_tokens, parse_line_loop, sep_clauses],
      hrows, by simp [clause_ptrs], hcur, htotal⟩
  | cons p ps ih =>
    intro done rest closed cur free argvs pre post htl hpre hrows hcur hps hcount htotal
    have hclosed := rows_hold_length argvs closed hrows
    have hp := hps p (List.mem_cons_self _ _)
    simp only [List.length_cons] at hcount
    simp only [MAX_ARGC, MAX_CLAUSES, CLAUSE_SLOTS] at hclosed hp hcount htotal hcur
    obtain ⟨q, free, rfl⟩ := exists_cons free (by omega)
    obtain ⟨junk, free, rfl, hjunk⟩ := exists_split free (10 - cur.length)
      (by simp only [List.length_cons] at htotal; omega)
    obtain ⟨q', free, rfl⟩ := exists_cons free
      (by simp only [List.length_cons, List.length_append] at htotal; omega)
    obtain ⟨free1, free2, rfl, hfree1⟩ := exists_split free p.2.length
      (by simp only [List.length_cons, List.length_append] at htotal; omega)
    simp only [List.length_cons, List.length_append] at htotal
    -- the token with the prefix '|'
    have hstep := parse_line_step_pipe (done ++ [0, 0])
      (p.1 ++ sep_words 0 p.2 ++ sep_clauses 0 0 124 0 ps ++ rest) line closed cur q q' junk
      (free1 ++ free2) argvs.length pre.length (List.length_pos.mpr hpre)
      (by
        rw [htl]
        simp only [clause_offs, List.cons_append, List.append_assoc, List.length_append,
          List.length_cons, List.length_nil]
        exact getElem?_mid _ _ _)
      (by simp only [MAX_ARGC]; exact hclosed) (by simp only [MAX_ARGC]; omega)
      (by simp only [MAX_CLAUSES]; omega)
    -- the other words of the clause
    have hlen1 : (done ++ 0 :: 0 :: 0 :: p.1).length = done.length + 3 + p.1.length := by
      simp; omega
    have hrows1 := rows_hold_append argvs closed cur junk hrows
      (by simp only [MAX_ARGC]; omega)
    have hwords := parse_line_loop_words line p.2 (done ++ 0 :: 0 :: 0 :: p.1)
      (sep_clauses 0 0 124 0 ps ++ rest) (closed ++ cur.map Slot.ptr ++ Slot.null :: junk)
      [done.length + 3] free1 free2 (argvs.length + 1) (pre ++ [done.length + 2])
      (clause_offs (done.length + 3 + p.1.length + (sep_words 0 p.2).length) ps ++ post)
      (by rw [htl, hlen1]; simp [clause_offs]) (by simp)
      (by
        have := rows_hold_length _ _ hrows1
        simpa using this)
      (by simp only [MAX_ARGC, List.length_singleton]; omega) hfree1
    -- the clauses after it
    have hlen2 : (done ++ 0 :: 0 :: 0 :: p.1 ++ sep_words 0 p.2).length
        = done.length + 3 + p.1.length + (sep_words 0 p.2).length := by
      simp; omega
    obtain ⟨closed', cur', free', argvs', hloop, hrows', hargv, hcur', htotal'⟩ :=
      ih (done ++ 0 :: 0 :: 0 :: p.1 ++ sep_words 0 p.2) rest
        (closed ++ cur.map Slot.ptr ++ Slot.null :: junk)
        ([done.length + 3] ++ (word_offs (done.length + 3 + p.1.length) p.2).map (· + 1))
        free2 (argvs ++ [cur])
        (pre ++ [done.length + 2] ++ word_offs (done.length + 3 + p.1.length) p.2) post
        (by rw [htl, hlen2]; simp [clause_offs]) (by simp) hrows1
        (by simp only [MAX_ARGC, List.length_append, List.length_singleton, List.length_map,
              word_offs_length]; omega)
        (fun p' hp' => hps p' (List.mem_cons_of_mem _ hp'))
        (by simp only [MAX_CLAUSES, List.length_append, List.length_singleton]; omega)
        (by
          simp only [CLAUSE_SLOTS, MAX_CLAUSES, MAX_ARGC, List.length_append,
            List.length_singleton, List.length_map, List.length_cons, List.length_nil,
            word_offs_length]
          omega)
    refine ⟨closed', cur', free', argvs', ?_, hrows', ?_, hcur', htotal'⟩
    · rw [hlen1] at hwords
      simp only [List.length_append, List.length_singleton, List.length_cons, List.length_nil,
        word_offs_length, Nat.zero_add] at hloop hwords hstep
      simp only [sep_clauses, List.cons_append, List.append_assoc, List.nil_append,
        List.singleton_append] at hstep hwords hloop ⊢
      rw [show clause_tokens (p :: ps) = (p.2.length + clause_tokens ps) + 1 by
        simp only [clause_tokens]; omega]
      rw [parse_line_loop_succ_ok hstep]
      exact parse_line_loop_chain hwords rfl hloop
    · rw [hlen2] at hargv
      rw [hargv]
      simp [clause_ptrs]

theorem str_len_t_word (w rest : List Nat) (hw : ∀ c ∈ w, c ≠ 0) :
    str_len_t (w ++ 0 :: rest) = some w.length := by
  induction w with
  | nil => simp [str_len_t]
  | cons c w ih =>
    have hc := hw c (List.mem_cons_self _ _)
    simp [str_len_t, hc, ih (fun c' hc' => hw c' (List.mem_cons_of_mem _ hc'))]

/-- The string at the offset of a NUL-free word that a NUL follows is the word. -/
theorem c_string_word (done w rest : List Nat) (hw : ∀ c ∈ w, c ≠ 0) :
    c_string (done ++ w ++ 0 :: rest) done.length = some w := by
  unfold c_string
  rw [List.append_assoc, List.drop_left, str_len_t_word w rest hw]
  simp

theorem sep_words_zero_head (ws : List (List Nat)) (rest : List Nat) :
    ∃ rest', sep_words 0 ws ++ 0 :: rest = 0 :: rest' := by
  cases ws with
  | nil => exact ⟨rest, rfl⟩
  | cons w ws => exact ⟨_, rfl⟩

theorem sep_clauses_zero_head (ps : List (List Nat × List (List Nat))) (rest : List Nat) :
    ∃ rest', sep_clauses 0 0 0 0 ps ++ 0 :: rest = 0 :: rest' := by
  cases ps with
  | nil => exact ⟨rest, rfl⟩
  | cons p ps => exact ⟨_, rfl⟩

/-- The pointers to words that follow single NUL bytes point at those words. -/
theorem word_strings (ws : List (List Nat)) (hws : ∀ w ∈ ws, is_word w) :
    ∀ (done rest : List Nat),
      List.Forall₂ (fun p w => c_string (done ++ sep_words 0 ws ++ 0 :: rest) p = some w)
        ((word_offs done.length ws).map (· + 1)) ws := by
  induction ws with
  | nil => intro done rest; exact List.Forall₂.nil
  | cons w ws ih =>
    intro done rest
    have hw : ∀ c ∈ w, c ≠ 0 := fun c hc => ((hws w (List.mem_cons_self _ _)).2 c hc).2
    obtain ⟨rest', hrest'⟩ := sep_words_zero_head ws rest
    have hlen : (done ++ 0 :: w).length = done.length + 1 + w.length := by simp; omega
    have hrec := ih (fun w' hw' => hws w' (List.mem_cons_of_mem _ hw')) (done ++ 0 :: w) rest
    rw [hlen] at hrec
    have hbuf : done ++ sep_words 0 (w :: ws) ++ 0 :: rest
        = done ++ 0 :: w ++ sep_words 0 ws ++ 0 :: rest := by
      simp [sep_words]
    simp only [word_offs, List.map_cons]
    refine List.Forall₂.cons ?_ (by rw [hbuf]; exact hrec)
    have := c_string_word (done ++ [0]) w rest' hw
    rw [← hrest'] at this
    rw [hbuf]
    simpa using this

/-- The pointers to the words of clauses point at those words. -/
theorem clause_strings (ps : List (List Nat × List (List Nat)))
    (hps : ∀ p ∈ ps, is_word p.1 ∧ ∀ w ∈ p.2, is_word w) :
    ∀ (done rest : List Nat),
      List.Forall₂
        (List.Forall₂ fun p w =>
          c_string (done ++ sep_clauses 0 0 0 0 ps ++ 0 :: rest) p = some w)
        (clause_ptrs done.length ps) (ps.map fun p => p.1 :: p.2) := by
  induction ps with
  | nil => intro done rest; exact List.Forall₂.nil
  | cons p ps ih =>
    intro done rest
    obtain ⟨hp1, hp2⟩ := hps p (List.mem_cons_self _ _)
    have hw : ∀ c ∈ p.1, c ≠ 0 := fun c hc => (hp1.2 c hc).2
    obtain ⟨rest1, hrest1⟩ := sep_clauses_zero_head ps rest
    obtain ⟨rest2, hrest2⟩ := sep_words_zero_head p.2 rest1
    have hlen1 : (done ++ 0 :: 0 :: 0 :: p.1).length = done.length + 3 + p.1.length := by
      simp; omega
    have hlen2 : (done ++ 0 :: 0 :: 0 :: p.1 ++ sep_words 0 p.2).length
        = done.length + 3 + p.1.length + (sep_words 0 p.2).length := by
      simp; omega
    have hbuf : done ++ sep_clauses 0 0 0 0 (p :: ps) ++ 0 :: rest
        = done ++ 0 :: 0 :: 0 :: p.1 ++ sep_words 0 p.2 ++ sep_clauses 0 0 0 0 ps ++ 0 :: rest := by
      simp [sep_clauses]
    have hrec := ih (fun q hq => hps q (List.mem_cons_of_mem _ hq))
      (done ++ 0 :: 0 :: 0 :: p.1 ++ sep_words 0 p.2) rest
    rw [hlen2] at hrec
    have hwords := word_strings p.2 hp2 (done ++ 0 :: 0 :: 0 :: p.1) rest1
    rw [hlen1, ← hrest1] at hwords
    have hfirst := c_string_word (done ++ [0, 0, 0]) p.1 rest2 hw
    rw [← hrest2, ← hrest1] at hfirst
    simp only [clause_ptrs, List.map_cons]
    rw [hbuf]
    refine List.Forall₂.cons (List.Forall₂.cons ?_ ?_) hrec
    · simpa using hfirst
    · simpa using hwords

theorem str_len_t_le : ∀ (l : List Nat) (n : Nat), str_len_t l = some n → n < l.length := by
  intro l
  induction l with
  | nil => intro n h; simp [str_len_t] at h
  | cons c l ih =>
    intro n h
    simp only [str_len_t] at h
    split at h
    · injection h with h; subst h; simp
    · cases hl : str_len_t l with
      | none => simp [hl] at h
      | some m =>
        simp only [hl, Option.map_some', Option.some.injEq] at h
        subst h
        have := ih m hl
        simp; omega

/-- What `c_string` returning a string says of `str_len` and of the bytes. -/
theorem c_string_some {buf a : List Nat} {p : Nat} (h : c_string buf p = some a) :
    str_len buf p = Except.ok a.length ∧ ∀ k, k < a.length → buf[p + k]? = a[k]? := by
  unfold c_string at h
  cases hs : str_len_t (buf.drop p) with
  | none => simp [hs] at h
  | some n =>
    simp only [hs, Option.map_some', Option.some.injEq] at h
    have hn := str_len_t_le _ _ hs
    have hlen : a.length = n := by
      rw [← h, List.length_take]
      omega
    refine ⟨by simp [str_len, hs, hlen], ?_⟩
    intro k hk
    rw [← h, List.getElem?_take, if_pos (by omega), List.getElem?_drop]

/-- The last part of `parse_line` when the last argument is not empty and does not end
in `'&'`: the current clause is closed with `NULL` and counted. -/
theorem parse_line_finish_plain (buf : List Nat) (line : Line) (closed : List Slot)
    (cur : List Nat) (last : Nat) (q : Slot) (free : List Slot) (rows : Nat)
    (a : List Nat) (c : Nat) (hstr : c_string buf last = some (a ++ [c])) (hc : c ≠ 38)
    (hclosed : closed.length = rows * (MAX_ARGC + 1)) :
    parse_line_finish (row_state buf line closed (cur ++ [last]) (q :: free) rows)
      = Except.ok (buf,
          { line with clause_list := closed ++ (cur ++ [last]).map Slot.ptr ++ Slot.null :: free,
                      clause_count := rows + 1, run_bg := 0, input_file := none,
                      output_file := none }) := by
  obtain ⟨hlen, hbytes⟩ := c_string_some hstr
  have hlast := hbytes a.length (by simp)
  simp only [List.length_append, List.length_singleton, List.getElem?_concat_length] at hlen hlast
  have hslot : load (closed ++ (cur ++ [last]).map Slot.ptr ++ q :: free)
      (rows * (MAX_ARGC + 1) + (cur.length + 1) - 1) = Except.ok (Slot.ptr last) := by
    have := load_mid (closed ++ cur.map Slot.ptr) (Slot.ptr last) (q :: free)
    simp only [List.length_append, List.length_map, hclosed] at this
    rw [← this]
    congr 1
    simp
  have hstore := store_mid (closed ++ (cur ++ [last]).map Slot.ptr) q Slot.null free
  simp only [List.length_append, List.length_map, List.length_singleton, hclosed] at hstore
  have hbyte : load buf (last + (a.length + 1) - 1) = Except.ok c := by
    rw [load_eq_ok, show last + (a.length + 1) - 1 = last + a.length by omega]
    exact hlast
  have hne : ¬ rows * (MAX_ARGC + 1) + (cur.length + 1) = 0 := by omega
  have hne2 : ¬ last + (a.length + 1) = 0 := by omega
  unfold parse_line_finish
  simp only [row_state, List.length_append, List.length_singleton, hne, if_false, hslot,
    hlen, hne2, hbyte, hc, hstore, bind, Except.bind, pure, Except.pure]

theorem clause_tokens_le (ps : List (List Nat × List (List Nat)))
    (h : ∀ p ∈ ps, 1 + p.2.length ≤ MAX_ARGC) : clause_tokens ps ≤ MAX_ARGC * ps.length := by
  induction ps with
  | nil => simp [clause_tokens]
  | cons p ps ih =>
    have h1 := h p (List.mem_cons_self _ _)
    have h2 := ih (fun q hq => h q (List.mem_cons_of_mem _ hq))
    simp only [clause_tokens, List.length_cons, MAX_ARGC] at h1 h2 ⊢
    omega

theorem mapM_of_forall₂ {f : Nat → Option (List Nat)} {ps : List Nat} {ws : List (List Nat)}
    (h : List.Forall₂ (fun p w => f p = some w) ps ws) : ps.mapM f = some ws := by
  induction h with
  | nil => rfl
  | cons hd _ ih => rw [List.mapM_cons, hd, ih]; rfl

/-- The parse of a line of clauses separated by ` | `, of words separated by single
spaces, whose last word does not end in `'&'`, followed by a NUL and bytes that are
neither space nor operator. -/
theorem parse_pipeline (w0 : List Nat) (ws0 : List (List Nat))
    (ps : List (List Nat × List (List Nat))) (tail : List Nat) (line : Line)
    (hw0 : is_word w0) (hws0 : ∀ w ∈ ws0, is_word w)
    (hps : ∀ p ∈ ps, is_word p.1 ∧ ∀ w ∈ p.2, is_word w)
    (htail : ∀ c ∈ tail, is_word_byte c)
    (hargs0 : 1 + ws0.length ≤ MAX_ARGC) (hargs : ∀ p ∈ ps, 1 + p.2.length ≤ MAX_ARGC)
    (hclauses : 1 + ps.length ≤ MAX_CLAUSES)
    (hlast : ∀ cl w, ((w0 :: ws0) :: ps.map fun p => p.1 :: p.2).getLast? = some cl →
      cl.getLast? = some w → w.getLast? ≠ some 38)
    (hlen : (w0 ++ sep_words 32 ws0 ++ sep_clauses 32 124 32 32 ps ++ 0 :: tail).length
      = IN_BUFF_SIZE)
    (hslots : line.clause_list.length = CLAUSE_SLOTS) :
    ∃ b l, parse (w0 ++ sep_words 32 ws0 ++ sep_clauses 32 124 32 32 ps ++ 0 :: tail) line
        = Except.ok (b, l) ∧
      l.clause_count = 1 + ps.length ∧ l.input_file = none ∧ l.output_file = none ∧
      l.run_bg = 0 ∧
      ∀ (i : Nat) (h : i < ((w0 :: ws0) :: ps.map fun p => p.1 :: p.2).length),
        clause_argv b l i = some (((w0 :: ws0) :: ps.map fun p => p.1 :: p.2)[i]) := by
  have hcap : 1 + ws0.length + clause_tokens ps ≤ TOKEN_SLOTS := by
    have := clause_tokens_le ps hargs
    simp only [MAX_ARGC, MAX_CLAUSES, TOKEN_SLOTS] at *
    omega
  have htok := parse_tokens_pipeline w0 ws0 ps (0 :: tail) line hw0 hws0 hps
    (by
      intro c hc
      rcases List.mem_cons.mp hc with rfl | hc
      · exact ⟨by decide, by decide, by decide, by decide⟩
      · exact htail c hc) hcap hlen
  -- the state of `parse_line` after the first token
  obtain ⟨q0, free0, hq0⟩ := exists_cons line.clause_list (by rw [hslots]; decide)
  obtain ⟨free1, free2, rfl, hfree1⟩ := exists_split free0 ws0.length (by
    have := congrArg List.length hq0
    simp only [hslots, List.length_cons, CLAUSE_SLOTS, MAX_ARGC, MAX_CLAUSES] at this hargs0
    omega)
  have htotal : free1.length + free2.length + 1 = CLAUSE_SLOTS := by
    have := congrArg List.length hq0
    simp only [hslots, List.length_cons, List.length_append] at this
    omega
  obtain ⟨l1, htok, htl, hcl1⟩ : ∃ l1 : Line,
      parse_tokens (w0 ++ sep_words 32 ws0 ++ sep_clauses 32 124 32 32 ps ++ 0 :: tail) line
        = Except.ok (w0 ++ sep_words 0 ws0 ++ sep_clauses 0 0 124 0 ps ++ 0 :: tail, l1) ∧
      l1.token_list = [0] ++ word_offs w0.length ws0 ++
        clause_offs (w0.length + (sep_words 0 ws0).length) ps ∧
      l1.clause_list = q0 :: (free1 ++ free2) := ⟨_, htok, rfl, hq0⟩
  have hfirst := parse_line_step_first
    (w0 ++ sep_words 0 ws0 ++ sep_clauses 0 0 124 0 ps ++ 0 :: tail) l1 q0 (free1 ++ free2) 0
    (by rw [htl]; simp)
  have hwords := parse_line_loop_words l1 ws0 w0 (sep_clauses 0 0 124 0 ps ++ 0 :: tail) []
    [0] free1 free2 0 [0] (clause_offs (w0.length + (sep_words 0 ws0).length) ps)
    htl (by simp) (by simp) (by simpa [Nat.add_comm] using hargs0) hfree1
  have hlen0 : (w0 ++ sep_words 0 ws0).length = w0.length + (sep_words 0 ws0).length := by
    simp
  obtain ⟨closed', cur', free', argvs', hloop, hrows', hargv, hcur', htotal'⟩ :=
    parse_line_loop_clauses l1 ps (w0 ++ sep_words 0 ws0) (0 :: tail) []
      ([0] ++ (word_offs w0.length ws0).map (· + 1)) free2 []
      ([0] ++ word_offs w0.length ws0) []
      (by rw [htl, hlen0]; simp) (by simp) rfl
      (by simpa [word_offs_length, Nat.add_comm] using hargs0) hargs
      (by simp only [List.length_nil, MAX_CLAUSES] at hclauses ⊢; omega)
      (by
        simp only [List.length_nil, List.length_append, List.length_singleton,
          List.length_map, word_offs_length, CLAUSE_SLOTS] at htotal ⊢
        omega)
  rw [hlen0] at hargv
  -- the token loop as a whole
  have hcount : l1.token_count = (ws0.length + clause_tokens ps) + 1 := by
    simp [Line.token_count, htl, word_offs_length, clause_offs_length]
  have hrun : parse_line_loop l1.token_count 0
      (parse_line_init (w0 ++ sep_words 0 ws0 ++ sep_clauses 0 0 124 0 ps ++ 0 :: tail) l1)
      = Except.ok (row_state (w0 ++ sep_words 0 ws0 ++ sep_clauses 0 0 0 0 ps ++ 0 :: tail)
          l1 closed' cur' free' argvs'.length) := by
    rw [hcount, parse_line_init_eq, hcl1, parse_line_loop_succ_ok hfirst]
    simp only [List.length_append, List.length_singleton, List.length_nil, List.append_assoc,
      word_offs_length, List.nil_append, Nat.zero_add] at hwords hloop ⊢
    exact parse_line_loop_chain hwords (by omega) hloop
  -- the strings the pointers point at
  have hstrings : List.Forall₂ (List.Forall₂ fun p w =>
      c_string (w0 ++ sep_words 0 ws0 ++ sep_clauses 0 0 0 0 ps ++ 0 :: tail) p = some w)
      (argvs' ++ [cur']) ((w0 :: ws0) :: ps.map fun p => p.1 :: p.2) := by
    obtain ⟨r1, hr1⟩ := sep_clauses_zero_head ps tail
    obtain ⟨r2, hr2⟩ := sep_words_zero_head ws0 r1
    have h0 := c_string_word [] w0 r2 (fun c hc => (hw0.2 c hc).2)
    have h1 := word_strings ws0 hws0 w0 r1
    have h2 := clause_strings ps hps (w0 ++ sep_words 0 ws0) tail
    rw [hlen0] at h2
    rw [← hr2, ← hr1] at h0
    rw [← hr1] at h1
    rw [hargv]
    simp only [List.nil_append, List.append_assoc, List.singleton_append, List.length_nil]
      at h0 h1 h2 ⊢
    exact List.Forall₂.cons (List.Forall₂.cons h0 h1) h2
  have hwords_ok : ∀ cl ∈ ((w0 :: ws0) :: ps.map fun p => p.1 :: p.2), ∀ w ∈ cl, is_word w := by
    intro cl hcl w hw
    rcases List.mem_cons.mp hcl with rfl | hcl
    · rcases List.mem_cons.mp hw with rfl | hw
      · exact hw0
      · exact hws0 w hw
    · obtain ⟨p, hp, rfl⟩ := List.mem_map.mp hcl
      rcases List.mem_cons.mp hw with rfl | hw
      · exact (hps p hp).1
      · exact (hps p hp).2 w hw
  -- the last argument of the last clause
  have hrev := List.forall₂_reverse_iff.mpr hstrings
  rw [List.reverse_append, List.reverse_singleton, List.singleton_append] at hrev
  obtain ⟨cl, rcls, hcur_cl, -, hrcls⟩ := List.forall₂_cons_left_iff.mp hrev
  have hcl_last : ((w0 :: ws0) :: ps.map fun p => p.1 :: p.2).getLast? = some cl := by
    rw [← List.head?_reverse, hrcls]
    rfl
  have hcl_mem : cl ∈ ((w0 :: ws0) :: ps.map fun p => p.1 :: p.2) :=
    List.mem_of_getLast?_eq_some hcl_last
  have hcl_ne : cl ≠ [] := by
    rcases List.mem_cons.mp hcl_mem with rfl | h
    · simp
    · obtain ⟨p, _, rfl⟩ := List.mem_map.mp h
      simp
  obtain ⟨cl0, wl, rfl⟩ : ∃ cl0 wl, cl = cl0 ++ [wl] :=
    ⟨cl.dropLast, cl.getLast hcl_ne, (List.dropLast_append_getLast hcl_ne).symm⟩
  have hrev2 := List.forall₂_reverse_iff.mpr hcur_cl
  rw [List.reverse_append, List.reverse_singleton, List.singleton_append] at hrev2
  obtain ⟨last, rcur, hlast_str, -, hrcur⟩ := List.forall₂_cons_right_iff.mp hrev2
  have hcur_eq : cur' = rcur.reverse ++ [last] := by
    have := congrArg List.reverse hrcur
    simpa using this
  have hwl := hwords_ok _ hcl_mem wl (by simp)
  obtain ⟨a, c, rfl⟩ : ∃ a c, wl = a ++ [c] :=
    ⟨wl.dropLast, wl.getLast hwl.1, (List.dropLast_append_getLast hwl.1).symm⟩
  have hc : c ≠ 38 := by
    have := hlast (cl0 ++ [a ++ [c]]) (a ++ [c]) hcl_last (by simp)
    simpa using this
  -- the last part of `parse_line`
  have hclosed' := rows_hold_length argvs' closed' hrows'
  obtain ⟨q, free'', rfl⟩ := exists_cons free' (by
    simp only [CLAUSE_SLOTS, MAX_ARGC, MAX_CLAUSES] at htotal' hclosed' hcur' hclauses
    have hn : argvs'.length + 1 = 1 + ps.length := by
      have := congrArg List.length hargv
      simpa [clause_ptrs_length, Nat.add_comm] using this
    omega)
  subst hcur_eq
  have hfinish := parse_line_finish_plain
    (w0 ++ sep_words 0 ws0 ++ sep_clauses 0 0 0 0 ps ++ 0 :: tail) l1 closed' rcur.reverse
    last q free'' argvs'.length a c hlast_str hc hclosed'
  have hn : argvs'.length = ps.length := by
    have := congrArg List.length hargv
    simpa [clause_ptrs_length] using this
  have hparse : parse (w0 ++ sep_words 32 ws0 ++ sep_clauses 32 124 32 32 ps ++ 0 :: tail) line
      = Except.ok (w0 ++ sep_words 0 ws0 ++ sep_clauses 0 0 0 0 ps ++ 0 :: tail,
          { l1 with clause_list := closed' ++ (rcur.reverse ++ [last]).map Slot.ptr ++
                      Slot.null :: free'',
                    clause_count := argvs'.length + 1, run_bg := 0, input_file := none,
                    output_file := none }) := by
    unfold parse parse_line
    simp only [htok, bind, Except.bind, hrun]
    exact hfinish
  refine ⟨_, _, hparse, ?_, rfl, rfl, rfl, ?_⟩
  · simp only [hn]
    omega
  · intro i hi
    have hrel := hstrings.get (i := i)
      (by rw [hstrings.length_eq]; exact hi) hi
    have hread : read_argv ((closed' ++ (rcur.reverse ++ [last]).map Slot.ptr ++
        Slot.null :: free'').drop (i * (MAX_ARGC + 1)))
        = some ((argvs' ++ [rcur.reverse ++ [last]]).get
            ⟨i, by rw [hstrings.length_eq]; exact hi⟩) := by
      by_cases hlt : i < argvs'.length
      · rw [List.append_assoc, rows_hold_read argvs' closed' i _ hrows' hlt]
        simp [List.getElem_append_left hlt]
      · have hi' : i = argvs'.length := by
          simp only [List.length_cons, List.length_map] at hi
          omega
        subst hi'
        rw [← hclosed', List.append_assoc, List.drop_left, read_argv_ptrs]
        simp
    unfold clause_argv
    simp only [hread, Option.bind]
    exact mapM_of_forall₂ (by simpa using hrel)

theorem join_with_words (w : List Nat) (ws : List (List Nat)) :
    join_with [32] (w :: ws) = w ++ sep_words 32 ws := by
  induction ws generalizing w with
  | nil => simp [join_with, sep_words]
  | cons v ws ih => simp [join_with, sep_words, ih]

theorem join_with_clauses (t : List Nat) (ps : List (List Nat × List (List Nat))) :
    join_with [32, 124, 32] (t :: ps.map fun p => join_with [32] (p.1 :: p.2))
      = t ++ sep_clauses 32 124 32 32 ps := by
  induction ps generalizing t with
  | nil => simp [join_with, sep_clauses]
  | cons p ps ih =>
    rw [List.map_cons, join_with, ih, join_with_words]
    simp [sep_clauses]

theorem exists_pairs (cl : List (List (List Nat))) (h : ∀ c ∈ cl, c ≠ []) :
    ∃ ps : List (List Nat × List (List Nat)), cl = ps.map fun p => p.1 :: p.2 := by
  induction cl with
  | nil => exact ⟨[], rfl⟩
  | cons c cl ih =>
    obtain ⟨ps, rfl⟩ := ih (fun c' hc' => h c' (List.mem_cons_of_mem _ hc'))
    cases c with
    | nil => exact absurd rfl (h [] (List.mem_cons_self _ _))
    | cons w ws => exact ⟨(w, ws) :: ps, rfl⟩

theorem read_into_zero_buffer (text : List Nat) :
    read_into zero_buffer text
      = text ++ 0 :: List.replicate (IN_BUFF_SIZE - (text.length + 1)) 0 := by
  simp [read_into, zero_buffer]

theorem str_len_t_split : ∀ (l : List Nat) (n : Nat), str_len_t l = some n →
    ∃ rest, l = l.take n ++ 0 :: rest ∧ ∀ x ∈ l.take n, x ≠ 0 := by
  intro l
  induction l with
  | nil => intro n h; simp [str_len_t] at h
  | cons c l ih =>
    intro n h
    simp only [str_len_t] at h
    split at h
    · injection h with h
      subst h
      rename_i hc
      exact ⟨l, by simp [hc], by simp⟩
    · rename_i hc
      cases hl : str_len_t l with
      | none => simp [hl] at h
      | some m =>
        simp only [hl, Option.map_some', Option.some.injEq] at h
        subst h
        obtain ⟨rest, h1, h2⟩ := ih m hl
        refine ⟨rest, ?_, ?_⟩
        · simp only [List.take_succ_cons, List.cons_append]
          rw [← h1]
        · intro x hx
          simp only [List.take_succ_cons, List.mem_cons] at hx
          rcases hx with rfl | hx
          · exact hc
          · exact h2 x hx

/-- A buffer that holds the string `a` at offset `p` splits there into the bytes before,
the NUL-free string, its terminator and the rest. -/
theorem c_string_split {buf a : List Nat} {p : Nat} (h : c_string buf p = some a) :
    ∃ done rest, buf = done ++ a ++ 0 :: rest ∧ done.length = p ∧ ∀ x ∈ a, x ≠ 0 := by
  unfold c_string at h
  cases hs : str_len_t (buf.drop p) with
  | none => simp [hs] at h
  | some n =>
    simp only [hs, Option.map_some', Option.some.injEq] at h
    obtain ⟨rest, h1, h2⟩ := str_len_t_split _ _ hs
    rw [h] at h1 h2
    have hp : p ≤ buf.length := by
      by_contra hc
      rw [List.drop_of_length_le (by omega)] at h1
      simp at h1
    refine ⟨buf.take p, rest, ?_, by simp [hp], h2⟩
    rw [List.append_assoc, ← h1, List.take_append_drop]

/-- The last part of `parse_line` when the last argument of the last clause is not
empty, by the last byte `c` of that argument: kept when `c` is not `'&'`; stripped of
the `'&'` with `run_bg` set when other bytes precede it; dropped from the clause with
`run_bg` set when it is `"&"` and the clause has other arguments; a return of 0 when it
is `"&"` and the only argument. -/
theorem parse_line_finish_cases (s : ParseState) (p : Nat) (a : List Nat) (c : Nat)
    (hargs : 0 < s.argument_count)
    (hslot : s.line.clause_list[s.clause + s.argument_count - 1]? = some (Slot.ptr p))
    (hstr : c_string s.input_buffer p = some (a ++ [c]))
    (hroom : s.clause + s.argument_count < s.line.clause_list.length) :
    (c ≠ 38 → parse_line_finish s = Except.ok (s.input_buffer,
        { s.line with
          clause_list := s.line.clause_list.set (s.clause + s.argument_count) Slot.null,
          clause_count := s.line.clause_count + 1 })) ∧
    (c = 38 → a ≠ [] →
      parse_line_finish s = Except.ok (s.input_buffer.set (p + a.length) 0,
        { s.line with
          run_bg := 1,
          clause_list := s.line.clause_list.set (s.clause + s.argument_count) Slot.null,
          clause_count := s.line.clause_count + 1 }) ∧
      c_string (s.input_buffer.set (p + a.length) 0) p = some a) ∧
    (c = 38 → a = [] → s.argument_count ≠ 1 →
      parse_line_finish s = Except.ok (s.input_buffer.set p 0,
        { s.line with
          run_bg := 1,
          clause_list := s.line.clause_list.set (s.clause + s.argument_count - 1) Slot.null,
          clause_count := s.line.clause_count + 1 })) ∧
    (c = 38 → a = [] → s.argument_count = 1 →
      parse_line_finish s = Except.error (Stop.ret0 Ret0.lone_ampersand)) := by
  obtain ⟨done, rest, hbuf, hp, hnz⟩ := c_string_split hstr
  obtain ⟨hlen, hbytes⟩ := c_string_some hstr
  have hlast := hbytes a.length (by simp)
  simp only [List.length_append, List.length_singleton, List.getElem?_concat_length]
    at hlen hlast
  have hne : ¬ s.clause + s.argument_count = 0 := by omega
  have hne2 : ¬ p + (a.length + 1) = 0 := by omega
  have hload : load s.line.clause_list (s.clause + s.argument_count - 1)
      = Except.ok (Slot.ptr p) := load_eq_ok.mpr hslot
  have hbyte : load s.input_buffer (p + (a.length + 1) - 1) = Except.ok c := by
    rw [load_eq_ok, show p + (a.length + 1) - 1 = p + a.length by omega]
    exact hlast
  have hbyte2 : load s.input_buffer (p + a.length) = Except.ok c := load_eq_ok.mpr hlast
  have hin : p + a.length < s.input_buffer.length := by
    by_contra hc
    rw [List.getElem?_eq_none (by omega)] at hlast
    cases hlast
  have hstore := store_of_lt (0 : Nat) hin
  have hcl := store_of_lt Slot.null hroom
  have hcl' := store_of_lt Slot.null (show s.clause + s.argument_count - 1
    < s.line.clause_list.length by omega)
  refine ⟨?_, ?_, ?_, ?_⟩
  · intro hc
    unfold parse_line_finish
    simp only [hne, if_false, hload, hlen, hne2, hbyte, hc, hcl, bind, Except.bind, pure,
      Except.pure]
  · intro hc ha
    have hlen1 : ¬ a.length + 1 = 1 := by
      have := List.length_pos.mpr ha
      omega
    refine ⟨?_, ?_⟩
    · unfold parse_line_finish
      simp only [hne, if_false, hload, hlen, hne2, hbyte, hbyte2, hc, if_true, hcl, bind,
        Except.bind, pure, Except.pure, hlen1,
        show p + (a.length + 1) - 1 = p + a.length by omega, hstore]
    · have hset : s.input_buffer.set (p + a.length) 0 = done ++ a ++ 0 :: 0 :: rest := by
        rw [hbuf, ← hp]
        have := set_mid (done ++ a) c 0 (0 :: rest)
        simp only [List.length_append, List.append_assoc, List.cons_append,
          List.nil_append] at this ⊢
        exact this
      rw [hset, ← hp]
      exact c_string_word done a (0 :: rest)
        (fun x hx => hnz x (List.mem_append_left _ hx))
  · intro hc ha hargs1
    subst ha
    simp only [List.length_nil, Nat.zero_add, Nat.add_zero] at hlen hbyte hbyte2 hstore hne2
    unfold parse_line_finish
    simp only [hne, if_false, hload, hlen, hne2, hbyte, hbyte2, hc, if_true, hcl', bind,
      Except.bind, pure, Except.pure, hargs1, Nat.add_sub_cancel, hstore]
  · intro hc ha hargs1
    subst ha
    simp only [List.length_nil, Nat.zero_add, Nat.add_zero] at hlen hbyte hbyte2 hstore hne2
    simp only [hargs1, Nat.add_sub_cancel] at hne hload
    unfold parse_line_finish
    simp only [hne, if_false, hload, hlen, hne2, hbyte, hbyte2, hc, if_true, bind,
      Except.bind, pure, Except.pure, hargs1, Nat.add_sub_cancel, hstore]

/-- An iteration of the first loop of `run_line` in the parent, for a clause whose index is
inside `pids`. -/
theorem run_line_step_parent (line : Line) (sys : Sys) (s : RunState) (i : Nat)
    (hp : s.pids.length = MAX_CLAUSES - 1) (hi : i < MAX_CLAUSES - 1)
    (hf : sys.fork i ≠ -1 ∧ sys.fork i ≠ 0) :
    run_line_step line sys s i
      = Except.ok ⟨s.calls ++ clause_calls line.clause_count i,
          s.pids.set i (some (sys.fork i))⟩ := by
  obtain ⟨hf1, hf0⟩ := hf
  have hi9 : i < 9 := hi
  have h1 : ¬ (9 ≤ i) := by omega
  have h2 : ¬ (9 ≤ i - 1) := by omega
  have h4 : i - 1 < 9 := by omega
  have h3 : i < s.pids.length := by rw [hp]; exact hi
  unfold run_line_step clause_calls
  by_cases h0 : i = 0
  · subst h0
    by_cases hl : 1 = line.clause_count <;>
      simp [hl, h3, hf1, hf0, store]
  · by_cases hl : i + 1 = line.clause_count <;>
      simp [hl, h0, h1, h2, h3, h4, hf1, hf0, store]

/-- The first loop of `run_line` in the parent, while the clause index is inside `pids`. -/
theorem run_line_loop_parent (line : Line) (sys : Sys) : ∀ (n i : Nat) (s : RunState),
    s.pids.length = MAX_CLAUSES - 1 → i + n ≤ MAX_CLAUSES - 1 →
    (∀ k, i ≤ k → k < i + n → sys.fork k ≠ -1 ∧ sys.fork k ≠ 0) →
    (∀ k, k < i → s.pids[k]? = some (some (sys.fork k))) →
    ∃ s', run_line_loop line sys n i s = Except.ok s' ∧
      s'.calls = s.calls ++ (List.range' i n).flatMap (clause_calls line.clause_count) ∧
      s'.pids.length = MAX_CLAUSES - 1 ∧
      ∀ k, k < i + n → s'.pids[k]? = some (some (sys.fork k)) := by
  intro n
  induction n with
  | zero =>
    intro i s hp _ _ hk
    exact ⟨s, rfl, by simp, hp, hk⟩
  | succ n ih =>
    intro i s hp hin hf hk
    have hstep := run_line_step_parent line sys s i hp (by omega) (hf i le_rfl (by omega))
    obtain ⟨s', hl, hc, hp', hk'⟩ := ih (i + 1)
      ⟨s.calls ++ clause_calls line.clause_count i, s.pids.set i (some (sys.fork i))⟩
      (by simpa using hp) (by omega) (fun k h1 h2 => hf k (by omega) (by omega)) (by
        intro k hk1
        show (s.pids.set i (some (sys.fork i)))[k]? = _
        by_cases e : k = i
        · subst e
          rw [List.getElem?_set_self (by omega)]
        · rw [List.getElem?_set_ne (by omega)]
          exact hk k (by omega))
    refine ⟨s', ?_, ?_, hp', fun k h => hk' k (by omega)⟩
    · simp only [run_line_loop, hstep, bind, Except.bind]
      exact hl
    · rw [hc, List.range'_succ]
      simp [List.flatMap_cons, List.append_assoc]

/-- The second loop of `run_line`, over entries of `pids` that have been written. -/
theorem run_line_wait_ok (pid : Nat → Int) : ∀ (n i : Nat) (s : RunState),
    (∀ k, k < i + n → s.pids[k]? = some (some (pid k))) →
    run_line_wait n i s
      = Except.ok ⟨s.calls ++ (List.range' i n).map (fun k => Call.waitpid (pid k)),
          s.pids⟩ := by
  intro n
  induction n with
  | zero => intro i s _; simp [run_line_wait]
  | succ n ih =>
    intro i s h
    have hl : load s.pids i = Except.ok (some (pid i)) := load_eq_ok.mpr (h i (by omega))
    have := ih (i + 1) { s with calls := s.calls ++ [Call.waitpid (pid i)] }
      (fun k hk => h k (by omega))
    simp only [run_line_wait, hl]
    rw [this, List.range'_succ]
    simp [List.append_assoc]

/-- The parent makes no `waitpid` call in the first loop of `run_line`. -/
theorem clause_calls_no_waitpid (clause_count i : Nat) (pid : Int) :
    Call.waitpid pid ∉ clause_calls clause_count i := by
  unfold clause_calls
  by_cases h0 : i = 0
  · subst h0
    by_cases hl : 1 = clause_count <;> simp [hl]
  · by_cases hl : i + 1 = clause_count <;> simp [hl, h0]

/-- The parent calls `fork` once in an iteration of the first loop of `run_line`. -/
theorem clause_calls_fork (clause_count i : Nat) :
    (clause_calls clause_count i).count Call.fork = 1 := by
  unfold clause_calls
  by_cases h0 : i = 0
  · subst h0
    by_cases hl : 1 = clause_count <;> simp [hl]
  · by_cases hl : i + 1 = clause_count <;> simp [hl, h0]

/-- On a line of at most `MAX_CLAUSES - 1` clauses, with every `fork` succeeding, the parent
makes the calls of each clause in turn; then, if `run_bg` is 0, it waits for the children in
clause order; and it returns 1. -/
theorem run_line_parent (line : Line) (sys : Sys)
    (hn : line.clause_count ≤ MAX_CLAUSES - 1)
    (hf : ∀ k, k < line.clause_count → sys.fork k ≠ -1 ∧ sys.fork k ≠ 0) :
    run_line line sys
      = ⟨(List.range line.clause_count).flatMap (clause_calls line.clause_count) ++
          (if line.run_bg = 0 then
            (List.range line.clause_count).map (fun k => Call.waitpid (sys.fork k))
          else []), RunEnd.returned 1⟩ := by
  obtain ⟨s, hl, hc, _, hk⟩ := run_line_loop_parent line sys line.clause_count 0
    ⟨[], List.replicate (MAX_CLAUSES - 1) none⟩ (by simp) (by omega)
    (fun k _ h => hf k (by omega)) (fun k h => absurd h (by omega))
  simp only [Nat.zero_add, List.nil_append] at hc hk
  unfold run_line
  rw [hl]
  simp only
  by_cases hb : line.run_bg = 0
  · rw [if_pos hb, if_pos hb, run_line_wait_ok sys.fork _ 0 s (by simpa using hk)]
    simp [hc, List.range_eq_range']
  · rw [if_neg hb, if_neg hb]
    simp [hc, List.range_eq_range']

/-- The parent obtains the descriptors of `pipes[j]` in iteration `j`, unless clause `j` is
the last. -/
theorem clause_calls_count_pipe (n m j : Nat) :
    (clause_calls n m).count (Call.pipe j) = if m = j ∧ m + 1 ≠ n then 1 else 0 := by
  unfold clause_calls
  split_ifs <;> simp_all [List.count_cons, List.count_append]
  all_goals omega

/-- The parent closes the write end of `pipes[j]` in iteration `j`, unless clause `j` is the
last. -/
theorem clause_calls_count_close_write (n m j : Nat) :
    (clause_calls n m).count (Call.close j WRITE_END)
      = if m = j ∧ m + 1 ≠ n then 1 else 0 := by
  unfold clause_calls
  split_ifs <;> simp_all [List.count_cons, List.count_append]
  all_goals omega

/-- The parent closes the read end of `pipes[j]` in iteration `j + 1`. -/
theorem clause_calls_count_close_read (n m j : Nat) :
    (clause_calls n m).count (Call.close j READ_END) = if m = j + 1 then 1 else 0 := by
  unfold clause_calls
  split_ifs <;> simp_all [List.count_cons, List.count_append]
  all_goals omega

/-- The calls of the first `m` iterations of the parent obtain the descriptors of `pipes[j]`
once if `j < m` and clause `j` is not the last, and not at all otherwise. -/
theorem count_pipe (n j : Nat) : ∀ m,
    ((List.range m).flatMap (clause_calls n)).count (Call.pipe j)
      = if j < m ∧ j + 1 ≠ n then 1 else 0 := by
  intro m
  induction m with
  | zero => simp
  | succ m ih =>
    rw [List.range_succ, List.flatMap_append, List.count_append, ih]
    simp only [List.flatMap_cons, List.flatMap_nil, List.append_nil,
      clause_calls_count_pipe]
    split_ifs <;> omega

/-- The calls of the first `m` iterations of the parent close the write end of `pipes[j]`
once if `j < m` and clause `j` is not the last, and not at all otherwise. -/
theorem count_close_write (n j : Nat) : ∀ m,
    ((List.range m).flatMap (clause_calls n)).count (Call.close j WRITE_END)
      = if j < m ∧ j + 1 ≠ n then 1 else 0 := by
  intro m
  induction m with
  | zero => simp
  | succ m ih =>
    rw [List.range_succ, List.flatMap_append, List.count_append, ih]
    simp only [List.flatMap_cons, List.flatMap_nil, List.append_nil,
      clause_calls_count_close_write]
    split_ifs <;> omega

/-- The calls of the first `m` iterations of the parent close the read end of `pipes[j]`
once if `j + 1 < m`, and not at all otherwise. -/
theorem count_close_read (n j : Nat) : ∀ m,
    ((List.range m).flatMap (clause_calls n)).count (Call.close j READ_END)
      = if j + 1 < m then 1 else 0 := by
  intro m
  induction m with
  | zero => simp
  | succ m ih =>
    rw [List.range_succ, List.flatMap_append, List.count_append, ih]
    simp only [List.flatMap_cons, List.flatMap_nil, List.append_nil,
      clause_calls_count_close_read]
    split_ifs <;> omega

theorem run_line_loop_add (line : Line) (sys : Sys) (a b i : Nat) (s : RunState) :
    run_line_loop line sys (a + b) i s
      = run_line_loop line sys a i s >>= run_line_loop line sys b (i + a) := by
  induction a generalizing i s with
  | zero => simp [run_line_loop, bind, Except.bind]
  | succ a ih =>
    rw [show a + 1 + b = (a + b) + 1 by omega]
    simp only [run_line_loop]
    cases run_line_step line sys s i with
    | error e => rfl
    | ok s1 =>
      simp only [bind, Except.bind] at ih ⊢
      rw [ih, show i + 1 + a = i + (a + 1) by omega]

/-- An iteration of the first loop of `run_line` in the child, when `execve` fails: the
call after `execve` is `_exit(0)`. -/
theorem run_line_step_child (line : Line) (sys : Sys) (s : RunState) (i : Nat)
    (hi : i + 1 = line.clause_count ∨ i < MAX_CLAUSES - 1) (hi' : i < MAX_CLAUSES)
    (hchild : sys.fork i = 0) (hfail : sys.execve i = false) :
    ∃ calls, run_line_step line sys s i
      = Except.error ⟨calls ++ [Call.execve i, Call.exit 0], RunEnd.exited 0⟩ := by
  have h2 : ¬ (9 ≤ i - 1) := by
    have : i < 10 := hi'
    omega
  have h1 : ¬ (decide (i + 1 = line.clause_count) = false ∧ 9 ≤ i) := by
    rintro ⟨ha, hb⟩
    rcases hi with h | h
    · simp [h] at ha
    · have : i < 9 := h
      omega
  unfold run_line_step
  simp only [show MAX_CLAUSES - 1 = 9 from rfl, h1, if_false, hchild,
    show ¬ ((0 : Int) = -1) by decide, if_true, hfail, h2, and_false,
    Bool.false_eq_true]
  rw [List.append_assoc _ [Call.execve i] [Call.exit 0]]
  exact ⟨_, rfl⟩

/-- On a line of at most `MAX_CLAUSES - 1` clauses, with every `fork` succeeding, the parent
closes once each end of every pipe it obtained. -/
theorem run_line_parent_closes (line : Line) (sys : Sys) (j : Nat)
    (hn : line.clause_count ≤ MAX_CLAUSES - 1)
    (hf : ∀ k, k < line.clause_count → sys.fork k ≠ -1 ∧ sys.fork k ≠ 0)
    (hj : (run_line line sys).calls.count (Call.pipe j) = 1) :
    (run_line line sys).calls.count (Call.close j READ_END) = 1 ∧
    (run_line line sys).calls.count (Call.close j WRITE_END) = 1 := by
  have hw : ∀ (c : Call) (l : List Nat), (∀ pid, c ≠ Call.waitpid pid) →
      (l.map (fun k => Call.waitpid (sys.fork k))).count c = 0 := by
    intro c l hc
    rw [List.count_eq_zero]
    intro hmem
    obtain ⟨k, _, hk⟩ := List.mem_map.mp hmem
    exact hc _ hk.symm
  have hw' : ∀ (c : Call), (∀ pid, c ≠ Call.waitpid pid) →
      (if line.run_bg = 0 then
        (List.range line.clause_count).map (fun k => Call.waitpid (sys.fork k))
       else []).count c = 0 := by
    intro c hc
    split
    · exact hw c _ hc
    · rfl
  have hw1 := hw' (Call.pipe j) (fun pid => by simp)
  have hw2 := hw' (Call.close j READ_END) (fun pid => by simp)
  have hw3 := hw' (Call.close j WRITE_END) (fun pid => by simp)
  rw [run_line_parent line sys hn hf] at hj ⊢
  simp only [List.count_append, hw1, hw2, hw3, count_pipe, count_close_read,
    count_close_write, Nat.add_zero] at hj ⊢
  split at hj
  · rename_i h
    constructor
    · rw [if_pos (by omega)]
    · rw [if_pos h]
  · cases hj

theorem write_at_ok {mem mem' data : List Nat} {dest : Nat}
    (h : write_at mem dest data = Except.ok mem') :
    dest + data.length ≤ mem.length ∧
      mem' = mem.take dest ++ data ++ mem.drop (dest + data.length) := by
  unfold write_at at h
  split at h
  · injection h with h
    exact ⟨‹_›, h.symm⟩
  · cases h

theorem write_at_length {mem mem' data : List Nat} {dest : Nat}
    (h : write_at mem dest data = Except.ok mem') : mem'.length = mem.length := by
  obtain ⟨hle, rfl⟩ := write_at_ok h
  simp only [List.length_append, List.length_take, List.length_drop]
  omega

theorem write_at_take {mem mem' data : List Nat} {dest : Nat}
    (h : write_at mem dest data = Except.ok mem') (k : Nat) (hk : k ≤ dest) :
    mem'.take k = mem.take k := by
  obtain ⟨hle, rfl⟩ := write_at_ok h
  rw [List.append_assoc, List.take_append_of_le_length (by simp; omega), List.take_take]
  congr 1
  omega

theorem str_chr_none : ∀ (path : List Nat), str_chr path 58 = none →
    path_dirs path = [path] := by
  intro path
  induction path with
  | nil => intro _; rfl
  | cons c rest ih =>
    intro h
    simp only [str_chr] at h
    split at h
    · cases h
    · rename_i hc
      cases hr : str_chr rest 58 with
      | some k => simp [hr] at h
      | none =>
        simp only [path_dirs, hc, if_false, ih hr]

theorem path_dirs_ne_nil : ∀ (path : List Nat), path_dirs path ≠ [] := by
  intro path
  cases path with
  | nil => simp [path_dirs]
  | cons c rest =>
    simp only [path_dirs]
    split
    · simp
    · split <;> simp

theorem str_chr_some : ∀ (path : List Nat) (k : Nat), str_chr path 58 = some k →
    k < path.length ∧ path_dirs path = path.take k :: path_dirs (path.drop (k + 1)) := by
  intro path
  induction path with
  | nil => intro k h; simp [str_chr] at h
  | cons c rest ih =>
    intro k h
    simp only [str_chr] at h
    split at h
    · rename_i hc
      injection h with h
      subst h
      simp [path_dirs, hc]
    · rename_i hc
      cases hr : str_chr rest 58 with
      | none => simp [hr] at h
      | some j =>
        simp only [hr, Option.map_some', Option.some.injEq] at h
        subst h
        obtain ⟨hj, hd⟩ := ih j hr
        refine ⟨by simp; omega, ?_⟩
        simp only [path_dirs, hc, if_false, hd, List.take_succ_cons, List.drop_succ_cons]

/-- The loop of `find_in_path` tries the directories of `$PATH` in order. -/
theorem find_in_path_loop_eq (fs : FileSystem) (dir : List Nat) (out_buffer : Nat) :
    ∀ (fuel : Nat) (path dir_buffer : List Nat), path.length < fuel →
      find_in_path_loop fs dir out_buffer fuel path dir_buffer
        = try_dirs fs dir out_buffer (path_dirs path) dir_buffer := by
  intro fuel
  induction fuel with
  | zero => intro path _ h; omega
  | succ fuel ih =>
    intro path dir_buffer hlen
    cases hc : str_chr path 58 with
    | none =>
      rw [str_chr_none path hc]
      simp only [find_in_path_loop, hc, try_dirs, List.take_length]
    | some k =>
      obtain ⟨hk, hd⟩ := str_chr_some path k hc
      rw [hd]
      simp only [find_in_path_loop, hc, try_dirs]
      cases hw : write_at dir_buffer out_buffer (List.take k path ++ 47 :: dir ++ [0]) with
      | error e => rfl
      | ok buf =>
        simp only
        split
        · rfl
        · have hne := path_dirs_ne_nil (path.drop (k + 1))
          rw [ih (path.drop (k + 1)) buf (by simp; omega)]
          cases hp : path_dirs (path.drop (k + 1)) with
          | nil => exact absurd hp hne
          | cons d ds => rfl

/-- A search that finds a candidate has found the first one that exists, and has left it,
with its terminator, at `out_buffer`. -/
theorem try_dirs_found (fs : FileSystem) (dir : List Nat) (out_buffer : Nat) :
    ∀ (ds : List (List Nat)) (buf buf' : List Nat),
      try_dirs fs dir out_buffer ds buf = Except.ok (true, buf') →
      ∃ d rest, first_match fs dir ds = some d ∧ out_buffer ≤ buf.length ∧
        buf'.length = buf.length ∧
        buf' = buf.take out_buffer ++ (d ++ 47 :: dir) ++ 0 :: rest := by
  intro ds
  induction ds with
  | nil => intro buf buf' h; simp [try_dirs] at h
  | cons d ds ih =>
    intro buf buf' h
    simp only [try_dirs] at h
    cases hw : write_at buf out_buffer (d ++ 47 :: dir ++ [0]) with
    | error e => rw [hw] at h; cases h
    | ok buf1 =>
      rw [hw] at h
      simp only at h
      obtain ⟨hle, hb1⟩ := write_at_ok hw
      have hl1 := write_at_length hw
      by_cases hf : fs.f_ok (d ++ 47 :: dir) = true
      · rw [if_pos hf] at h
        injection h with h
        injection h with _ h
        subst h
        refine ⟨d, buf.drop (out_buffer + (d ++ 47 :: dir ++ [0]).length), ?_, by omega,
          hl1, ?_⟩
        · simp [first_match, List.find?, hf]
        · rw [hb1]
          simp [List.append_assoc]
      · rw [if_neg hf] at h
        cases ds with
        | nil => simp at h
        | cons d2 ds2 =>
          simp only at h
          obtain ⟨d', rest, hm, hle', hlen', hb'⟩ := ih buf1 buf' h
          refine ⟨d', rest, ?_, by omega, by omega, ?_⟩
          · have hf' : fs.f_ok (d ++ 47 :: dir) = false := by simpa using hf
            simp only [first_match, List.find?, hf'] at hm ⊢
            exact hm
          · rw [hb', write_at_take hw out_buffer le_rfl]

/-- The call `find_in_path` when `PATH` is set: the search over its directories. -/
theorem find_in_path_eq (fs : FileSystem) {environ : List (List Nat)} {path : List Nat}
    (henv : get_env environ (bytes "PATH") = Except.ok (some path))
    (dir dir_buffer : List Nat) (out_buffer : Nat) :
    find_in_path fs environ dir dir_buffer out_buffer
      = try_dirs fs dir out_buffer (path_dirs path) dir_buffer := by
  unfold find_in_path
  rw [henv]
  exact find_in_path_loop_eq fs dir out_buffer _ path dir_buffer (by omega)

/-- A call of `find_in_path` that returns has found `PATH` set. -/
theorem find_in_path_ok {fs : FileSystem} {environ : List (List Nat)}
    {dir dir_buffer : List Nat} {out_buffer : Nat} {res : Bool × List Nat}
    (h : find_in_path fs environ dir dir_buffer out_buffer = Except.ok res) :
    ∃ path, get_env environ (bytes "PATH") = Except.ok (some path) := by
  unfold find_in_path at h
  cases he : get_env environ (bytes "PATH") with
  | error e => rw [he] at h; cases h
  | ok v =>
    cases v with
    | none => rw [he] at h; cases h
    | some path => exact ⟨path, rfl⟩

/-- The two ways an iteration of the loop of `get_executable_paths` continues: the program
name exists and is recorded as it is, or it begins with neither `'/'` nor `'.'` and the
first candidate that exists is written to `dir_buffer` and recorded. -/
theorem get_executable_paths_step_ok {fs : FileSystem} {environ : List (List Nat)}
    {input_buffer : List Nat} {line : Line} {r r' : Resolver} {i : Nat}
    (h : get_executable_paths_step fs environ input_buffer line r i = Except.ok r') :
    ∃ file_dir name, line.clause_list[i * (MAX_ARGC + 1)]? = some (Slot.ptr file_dir) ∧
      c_string input_buffer file_dir = some name ∧ i < r.executable_paths.length ∧
      ((fs.f_ok name = true ∧
        r' = { r with executable_paths := r.executable_paths.set i (PathPtr.input file_dir) }) ∨
       (fs.f_ok name = false ∧ name.head? ≠ some 47 ∧ name.head? ≠ some 46 ∧
        ∃ path d rest len, get_env environ (bytes "PATH") = Except.ok (some path) ∧
          first_match fs name (path_dirs path) = some d ∧
          r.buff_trav ≤ r.dir_buffer.length ∧
          r'.dir_buffer = r.dir_buffer.take r.buff_trav ++ (d ++ 47 :: name) ++ 0 :: rest ∧
          r'.dir_buffer.length = r.dir_buffer.length ∧
          r'.executable_paths = r.executable_paths.set i (PathPtr.dir r.buff_trav) ∧
          str_len_t (r'.dir_buffer.drop r.buff_trav) = some len ∧
          r'.buff_trav = r.buff_trav + len + 1)) := by
  unfold get_executable_paths_step at h
  cases hs : line.clause_list[i * (MAX_ARGC + 1)]? with
  | none => rw [hs] at h; cases h
  | some slot =>
    cases slot with
    | indeterminate => rw [hs] at h; cases h
    | null => rw [hs] at h; cases h
    | ptr file_dir =>
      rw [hs] at h
      simp only at h
      cases hn : c_string input_buffer file_dir with
      | none => rw [hn] at h; cases h
      | some name =>
        rw [hn] at h
        simp only at h
        by_cases hf : fs.f_ok name = true
        · rw [if_pos hf] at h
          split at h
          · rename_i hi
            injection h with h
            exact ⟨file_dir, name, rfl, hn, hi, Or.inl ⟨hf, h.symm⟩⟩
          · cases h
        · rw [if_neg hf] at h
          have hf' : fs.f_ok name = false := by simpa using hf
          split at h
          · rename_i hbare
            cases hfind : find_in_path fs environ name r.dir_buffer r.buff_trav with
            | error e => rw [hfind] at h; cases h
            | ok res =>
              obtain ⟨found, buf⟩ := res
              obtain ⟨path, henv⟩ := find_in_path_ok hfind
              rw [find_in_path_eq fs henv] at hfind
              rw [find_in_path_eq fs henv, hfind] at h
              cases found with
              | false => cases h
              | true =>
                simp only at h
                obtain ⟨d, rest, hm, hle, hlen, hb⟩ := try_dirs_found _ _ _ _ _ _ hfind
                split at h
                · rename_i hi
                  cases hsl : str_len_t (buf.drop r.buff_trav) with
                  | none => rw [hsl] at h; cases h
                  | some len =>
                    rw [hsl] at h
                    simp only at h
                    injection h with h
                    refine ⟨file_dir, name, rfl, hn, hi, Or.inr ⟨hf', hbare.1, hbare.2, path,
                      d, rest, len, henv, hm, hle, ?_, ?_, ?_, ?_, ?_⟩⟩
                    · rw [← h]; exact hb
                    · rw [← h]; exact hlen
                    · rw [← h]
                    · rw [← h]; exact hsl
                    · rw [← h]
                · cases h
          · cases h

/-- The iteration of the loop of `get_executable_paths` for a program name that exists:
the name is recorded as it is, and `dir_buffer` is not written. -/
theorem get_executable_paths_step_existing {fs : FileSystem} {environ : List (List Nat)}
    {input_buffer : List Nat} {line : Line} {r : Resolver} {i file_dir : Nat}
    {name : List Nat}
    (hslot : line.clause_list[i * (MAX_ARGC + 1)]? = some (Slot.ptr file_dir))
    (hname : c_string input_buffer file_dir = some name)
    (hi : i < r.executable_paths.length) (hf : fs.f_ok name = true) :
    get_executable_paths_step fs environ input_buffer line r i
      = Except.ok { r with
          executable_paths := r.executable_paths.set i (PathPtr.input file_dir) } := by
  unfold get_executable_paths_step
  simp only [hslot, hname, hf, if_true, hi]

/-- The iteration of the loop of `get_executable_paths` for a program name that does not
exist and begins with `'/'` or `'.'`: the function returns 0. -/
theorem get_executable_paths_step_rooted {fs : FileSystem} {environ : List (List Nat)}
    {input_buffer : List Nat} {line : Line} {r : Resolver} {i file_dir : Nat}
    {name : List Nat}
    (hslot : line.clause_list[i * (MAX_ARGC + 1)]? = some (Slot.ptr file_dir))
    (hname : c_string input_buffer file_dir = some name)
    (hf : fs.f_ok name = false) (hroot : name.head? = some 47 ∨ name.head? = some 46) :
    get_executable_paths_step fs environ input_buffer line r i
      = Except.error (Halt.ret0 Refusal.file_not_found) := by
  have hc : ¬ (name.head? ≠ some 47 ∧ name.head? ≠ some 46) := by
    rintro ⟨h1, h2⟩
    rcases hroot with h | h
    · exact h1 h
    · exact h2 h
  unfold get_executable_paths_step
  simp only [hslot, hname, hf, Bool.false_eq_true, if_false, hc]

/-- An iteration of the loop of `get_executable_paths` writes one entry of
`executable_paths`, and `dir_buffer` only from `buff_trav` on. -/
theorem get_executable_paths_step_frame {fs : FileSystem} {environ : List (List Nat)}
    {input_buffer : List Nat} {line : Line} {r r' : Resolver} {i : Nat}
    (h : get_executable_paths_step fs environ input_buffer line r i = Except.ok r') :
    (∀ k, k ≠ i → r'.executable_paths[k]? = r.executable_paths[k]?) ∧
    r.buff_trav ≤ r'.buff_trav ∧
    r'.dir_buffer.take r.buff_trav = r.dir_buffer.take r.buff_trav := by
  obtain ⟨file_dir, name, _, _, _, hcase⟩ := get_executable_paths_step_ok h
  rcases hcase with ⟨_, rfl⟩ | ⟨_, _, _, path, d, rest, len, _, _, hle, hb, _, he, _, ht⟩
  · refine ⟨?_, le_rfl, rfl⟩
    intro k hk
    exact List.getElem?_set_ne (by omega)
  · refine ⟨?_, by omega, ?_⟩
    · intro k hk
      rw [he]
      exact List.getElem?_set_ne (by omega)
    · rw [hb, List.append_assoc, List.take_append_of_le_length (by simp; omega),
        List.take_take, Nat.min_self]

/-- The loop of `get_executable_paths` from clause `i` leaves the entries of
`executable_paths` before `i`, and `dir_buffer` before `buff_trav`, as they are. -/
theorem get_executable_paths_loop_frame {fs : FileSystem} {environ : List (List Nat)}
    {input_buffer : List Nat} {line : Line} : ∀ (n i : Nat) (r r' : Resolver),
    get_executable_paths_loop fs environ input_buffer line n i r = Except.ok r' →
    (∀ k, k < i → r'.executable_paths[k]? = r.executable_paths[k]?) ∧
    r.buff_trav ≤ r'.buff_trav ∧
    r'.dir_buffer.take r.buff_trav = r.dir_buffer.take r.buff_trav := by
  intro n
  induction n with
  | zero =>
    intro i r r' h
    simp only [get_executable_paths_loop] at h
    injection h with h
    subst h
    exact ⟨fun _ _ => rfl, le_rfl, rfl⟩
  | succ n ih =>
    intro i r r' h
    simp only [get_executable_paths_loop, bind, Except.bind] at h
    cases hs : get_executable_paths_step fs environ input_buffer line r i with
    | error e => rw [hs] at h; cases h
    | ok r1 =>
      rw [hs] at h
      simp only at h
      obtain ⟨he1, ht1, hb1⟩ := get_executable_paths_step_frame hs
      obtain ⟨he2, ht2, hb2⟩ := ih (i + 1) r1 r' h
      refine ⟨?_, by omega, ?_⟩
      · intro k hk
        rw [he2 k (by omega), he1 k (by omega)]
      · have h1 : r'.dir_buffer.take r.buff_trav
            = (r'.dir_buffer.take r1.buff_trav).take r.buff_trav := by
          rw [List.take_take, Nat.min_eq_left ht1]
        rw [h1, hb2, List.take_take, Nat.min_eq_left ht1, hb1]

/-- After the loop of `get_executable_paths`, the entry of each clause and the part of
`dir_buffer` written up to that clause are as the iteration of the clause left them. -/
theorem get_executable_paths_loop_steps {fs : FileSystem} {environ : List (List Nat)}
    {input_buffer : List Nat} {line : Line} : ∀ (n i : Nat) (r r' : Resolver),
    get_executable_paths_loop fs environ input_buffer line n i r = Except.ok r' →
    ∀ k, i ≤ k → k < i + n → ∃ rk rk',
      get_executable_paths_step fs environ input_buffer line rk k = Except.ok rk' ∧
      r'.executable_paths[k]? = rk'.executable_paths[k]? ∧
      r'.dir_buffer.take rk'.buff_trav = rk'.dir_buffer.take rk'.buff_trav := by
  intro n
  induction n with
  | zero => intro i r r' _ k h1 h2; omega
  | succ n ih =>
    intro i r r' h k hk1 hk2
    simp only [get_executable_paths_loop, bind, Except.bind] at h
    cases hs : get_executable_paths_step fs environ input_buffer line r i with
    | error e => rw [hs] at h; cases h
    | ok r1 =>
      rw [hs] at h
      simp only at h
      by_cases e : k = i
      · subst e
        obtain ⟨he2, _, hb2⟩ := get_executable_paths_loop_frame n (k + 1) r1 r' h
        exact ⟨r, r1, hs, he2 k (by omega), hb2⟩
      · exact ih (i + 1) r1 r' h k (by omega) (by omega)

/-- The first loop of `check_file_access` over entries that point at strings: it ends with
every path executable, or the function returns 0. -/
theorem check_executables_ok (fs : FileSystem) (input_buffer : List Nat) (r : Resolver) :
    ∀ (n i : Nat), (∀ k, i ≤ k → k < i + n → ∃ p, path_string input_buffer r k = some p) →
      (check_executables fs input_buffer r n i = Except.ok () ↔
        ∀ k, i ≤ k → k < i + n → ∀ p, path_string input_buffer r k = some p →
          fs.x_ok p = true) ∧
      (check_executables fs input_buffer r n i = Except.ok () ∨
        check_executables fs input_buffer r n i
          = Except.error (Halt.ret0 Refusal.missing_executable_access)) := by
  intro n
  induction n with
  | zero =>
    intro i _
    refine ⟨⟨fun _ k h1 h2 => by omega, fun _ => rfl⟩, Or.inl rfl⟩
  | succ n ih =>
    intro i hp
    obtain ⟨p, hpi⟩ := hp i le_rfl (by omega)
    obtain ⟨ih1, ih2⟩ := ih (i + 1) (fun k h1 h2 => hp k (by omega) (by omega))
    simp only [check_executables, hpi]
    by_cases hx : fs.x_ok p = true
    · rw [if_pos hx]
      refine ⟨?_, ih2⟩
      constructor
      · intro h k h1 h2 q hq
        by_cases e : k = i
        · subst e
          rw [hpi] at hq
          injection hq with hq
          subst hq
          exact hx
        · exact ih1.mp h k (by omega) (by omega) q hq
      · intro h
        exact ih1.mpr (fun k h1 h2 => h k (by omega) (by omega))
    · rw [if_neg hx]
      refine ⟨?_, Or.inr rfl⟩
      constructor
      · intro h
        cases h
      · intro h
        exact absurd (h i le_rfl (by omega) p hpi) hx

/-! ## The claims -/

/-- C1: for clauses `c1 ... cm` with `1 ≤ m ≤ MAX_CLAUSES`, each of 1 to `MAX_ARGC`
words (not empty, without space, `'|'`, `'<'`, `'>'` or NUL), the last word not ending
in `'&'`, whose text `c1 | c2 | ... | cm` (single spaces between words and around each
`'|'`) fits the input buffer with its terminator and NUL bytes after it: `parse_tokens`
followed by `parse_line` succeed, with `clause_count = m`, the argument vector of clause
`i` equal to the words of `ci`, `input_file = NULL`, `output_file = NULL` and
`run_bg = 0`. -/
theorem pipeline_line_parsed (clauses : List (List (List Nat))) (line : Line)
    (hclauses : 1 ≤ clauses.length ∧ clauses.length ≤ MAX_CLAUSES)
    (hargs : ∀ c ∈ clauses, 1 ≤ c.length ∧ c.length ≤ MAX_ARGC)
    (hwords : ∀ c ∈ clauses, ∀ w ∈ c, is_word w)
    (hlast : ∀ c w, clauses.getLast? = some c → c.getLast? = some w →
      w.getLast? ≠ some 38)
    (hfit : (pipeline_text clauses).length < IN_BUFF_SIZE)
    (hslots : line.clause_list.length = CLAUSE_SLOTS) :
    ∃ b l, parse (read_into zero_buffer (pipeline_text clauses)) line = Except.ok (b, l) ∧
      l.clause_count = clauses.length ∧
      (∀ (i : Nat) (h : i < clauses.length), clause_argv b l i = some clauses[i]) ∧
      l.input_file = none ∧ l.output_file = none ∧ l.run_bg = 0 := by
  obtain ⟨ps0, rfl⟩ := exists_pairs clauses (fun c hc => by
    have := (hargs c hc).1
    intro e
    subst e
    simp at this)
  cases ps0 with
  | nil => simp at hclauses
  | cons p0 ps =>
    obtain ⟨w0, ws0⟩ := p0
    have htext : pipeline_text (((w0, ws0) :: ps).map fun p => p.1 :: p.2)
        = w0 ++ sep_words 32 ws0 ++ sep_clauses 32 124 32 32 ps := by
      unfold pipeline_text
      simp only [List.map_cons, List.map_map]
      rw [join_with_words]
      exact join_with_clauses _ ps
    rw [htext] at hfit
    rw [htext, read_into_zero_buffer, List.append_assoc, List.append_assoc,
      ← List.append_assoc w0, ← List.append_assoc (w0 ++ sep_words 32 ws0)]
    simp only [List.map_cons, List.length_cons, List.length_map] at hclauses hlast ⊢
    obtain ⟨b, l, hparse, hcount, hin, hout, hbg, hargv⟩ :=
      parse_pipeline w0 ws0 ps
        (List.replicate (IN_BUFF_SIZE - ((w0 ++ sep_words 32 ws0 ++
          sep_clauses 32 124 32 32 ps).length + 1)) 0) line
        (hwords _ (List.mem_cons_self _ _) w0 (List.mem_cons_self _ _))
        (fun w hw => hwords _ (List.mem_cons_self _ _) w (List.mem_cons_of_mem _ hw))
        (fun p hp => by
          have hmem : (p.1 :: p.2) ∈ ((w0, ws0) :: ps).map fun p => p.1 :: p.2 :=
            List.mem_map.mpr ⟨p, List.mem_cons_of_mem _ hp, rfl⟩
          exact ⟨hwords _ hmem p.1 (List.mem_cons_self _ _),
            fun w hw => hwords _ hmem w (List.mem_cons_of_mem _ hw)⟩)
        (fun c hc => by
          rw [List.eq_of_mem_replicate hc]
          exact ⟨by decide, by decide, by decide, by decide⟩)
        (by
          have := (hargs (w0 :: ws0) (List.mem_cons_self _ _)).2
          simp only [List.length_cons] at this
          omega)
        (fun p hp => by
          have hmem : (p.1 :: p.2) ∈ ((w0, ws0) :: ps).map fun p => p.1 :: p.2 :=
            List.mem_map.mpr ⟨p, List.mem_cons_of_mem _ hp, rfl⟩
          have := (hargs _ hmem).2
          simp only [List.length_cons] at this
          omega)
        (by omega) hlast
        (by
          simp only [List.length_append, List.length_cons, List.length_replicate] at hfit ⊢
          omega)
        hslots
    refine ⟨b, l, hparse, by omega, ?_, hin, hout, hbg⟩
    intro i hi
    exact hargv i (by simpa using hi)

/-- C1, on the line `echo hi | wc -c`. -/
theorem pipeline_line_parsed_witness :
    pipeline_text [[bytes "echo", bytes "hi"], [bytes "wc", bytes "-c"]]
      = bytes "echo hi | wc -c" ∧
    ∃ b l, parse (read_into zero_buffer
        (pipeline_text [[bytes "echo", bytes "hi"], [bytes "wc", bytes "-c"]])) Line.uninit
        = Except.ok (b, l) ∧
      l.clause_count = [[bytes "echo", bytes "hi"], [bytes "wc", bytes "-c"]].length ∧
      (∀ (i : Nat) (h : i < [[bytes "echo", bytes "hi"], [bytes "wc", bytes "-c"]].length),
        clause_argv b l i
          = some [[bytes "echo", bytes "hi"], [bytes "wc", bytes "-c"]][i]) ∧
      l.input_file = none ∧ l.output_file = none ∧ l.run_bg = 0 :=
  ⟨by decide,
   pipeline_line_parsed [[bytes "echo", bytes "hi"], [bytes "wc", bytes "-c"]] Line.uninit
    (by decide) (by decide) (by decide)
    (by
      intro c w hc hw
      have hc' : c = [bytes "wc", bytes "-c"] := by simpa using hc.symm
      subst hc'
      have hw' : w = bytes "-c" := by simpa using hw.symm
      subst hw'
      decide)
    (by decide) (by decide)⟩

/-- C2: on the line `ls ` (a word followed by one space) the parse succeeds with one
clause of two arguments, `ls` and the empty string: the space before the terminator
adds an argument. -/
theorem trailing_space_adds_empty_argument :
    (parse (input_line "ls ") Line.uninit).map describe
      = Except.ok { clauses := [some [bytes "ls", []]], input_file := none,
                    output_file := none, run_bg := 0 } := by
  decide

/-- The parse of `sort < in.txt > out.txt &`: `parse_tokens` returns 1 and `parse_line`
returns 0 at the check of `in_redirect`. -/
theorem parse_sort_background :
    (parse_tokens (input_line "sort < in.txt > out.txt &") Line.uninit).map
        (fun r => r.2.token_list) = Except.ok [0, 6, 15, 23] ∧
    parse (input_line "sort < in.txt > out.txt &") Line.uninit
      = Except.error (Stop.ret0 Ret0.word_after_redirect) := by
  constructor <;> decide

/-- C4, as stated, fails: the line `sort < in.txt > out.txt &` does not parse. -/
theorem background_after_redirection_not_parsed :
    ¬ ∃ r, parse (input_line "sort < in.txt > out.txt &") Line.uninit = Except.ok r ∧
      describe r = { clauses := [some [bytes "sort"]], input_file := some (bytes "in.txt"),
                     output_file := some (bytes "out.txt"), run_bg := 1 } := by
  rintro ⟨r, h, _⟩
  rw [parse_sort_background.2] at h
  cases h

/-- C4, amended: on the line `sort < in.txt > out.txt &` `parse_tokens` returns 1 and
`parse_line` returns 0, at the check that no bare word follows a redirection; the line
`sort& < in.txt > out.txt` parses to the one clause `["sort"]` with input file `in.txt`,
output file `out.txt` and `run_bg` set. -/
theorem background_marker_before_redirection :
    (parse_tokens (input_line "sort < in.txt > out.txt &") Line.uninit).map
        (fun r => r.2.token_list) = Except.ok [0, 6, 15, 23] ∧
    parse (input_line "sort < in.txt > out.txt &") Line.uninit
      = Except.error (Stop.ret0 Ret0.word_after_redirect) ∧
    (parse (input_line "sort& < in.txt > out.txt") Line.uninit).map describe
      = Except.ok { clauses := [some [bytes "sort"]], input_file := some (bytes "in.txt"),
                    output_file := some (bytes "out.txt"), run_bg := 1 } :=
  ⟨parse_sort_background.1, parse_sort_background.2, by decide⟩

/-- C5: on the empty line the token loop of `parse_line` succeeds with the empty string
at offset 0 as the only argument, and the ampersand check then reads
`input_buffer[-1]`. -/
theorem empty_line_reads_before_buffer :
    (parse_tokens (input_line "") Line.uninit).map (fun r => r.2.token_list)
      = Except.ok [0] ∧
    (parse_line_loop 1 0
        (parse_line_init (input_line "") { Line.uninit with token_list := [0] })).map
        (fun s => (s.argument_count, s.line.clause_list[0]?,
          c_string s.input_buffer 0)) = Except.ok (1, some (Slot.ptr 0), some []) ∧
    parse (input_line "") Line.uninit = Except.error Stop.fault := by
  refine ⟨by decide, by decide, by decide⟩

/-- C6: a line of eleven words parses: the clause holds eleven arguments and its `NULL`
is stored at `clause_list[0][11]`, which is `clause_list[1][0]`. -/
theorem eleven_arguments_accepted :
    (parse (input_line "a b c d e f g h i j k") Line.uninit).map
        (fun r => (r.2.clause_count, (clause_argv r.1 r.2 0).map List.length,
          r.2.clause_list[MAX_ARGC]?, r.2.clause_list[MAX_ARGC + 1]?))
      = Except.ok (1, some 11, some (Slot.ptr 20), some Slot.null) := by
  decide

/-- C7: on the line `ls |`, which ends in an operator, `parse_tokens` returns 1 with a
second, empty token, and `parse_line` then succeeds with a second clause whose only
argument is the empty string. -/
theorem trailing_operator_accepted :
    (parse_tokens (input_line "ls |") Line.uninit).map (fun r => r.2.token_list)
      = Except.ok [0, 3] ∧
    (parse (input_line "ls |") Line.uninit).map describe
      = Except.ok { clauses := [some [bytes "ls"], some [[]]], input_file := none,
                    output_file := none, run_bg := 0 } := by
  constructor <;> decide

/-- C9: two buffers that hold the line `x` and differ only after its terminator parse to
different pipelines: one clause `["x"]` when NUL bytes follow, one clause
`["x", "b", "c", "d"]` when the rest of the rejected line `| a b c d` follows. -/
theorem parse_depends_on_bytes_after_terminator :
    (read_into zero_buffer (bytes "x")).take 2
      = (read_into (input_line "| a b c d") (bytes "x")).take 2 ∧
    (read_into zero_buffer (bytes "x")).take 2 = [120, 0] ∧
    parse_tokens (input_line "| a b c d") Line.uninit
      = Except.error (Stop.ret0 Ret0.operator_misplaced) ∧
    (parse (read_into zero_buffer (bytes "x")) Line.uninit).map describe
      = Except.ok { clauses := [some [bytes "x"]], input_file := none,
                    output_file := none, run_bg := 0 } ∧
    (parse (read_into (input_line "| a b c d") (bytes "x")) Line.uninit).map describe
      = Except.ok { clauses := [some [bytes "x", bytes "b", bytes "c", bytes "d"]],
                    input_file := none, output_file := none, run_bg := 0 } := by
  refine ⟨by decide, by decide, by decide, by decide, by decide⟩

/-- C12: let the program name of clause `i` be a string. If it names an existing entry, the
iteration of `get_executable_paths` for the clause records the pointer to the name and
writes nothing else, and whenever `get_executable_paths` returns 1 the entry of the clause
is that pointer. If it names no existing entry and begins with `'/'` or `'.'`, the
iteration makes the function return 0, and `get_executable_paths` does not return 1. -/
theorem existing_name_recorded_unchanged (fs : FileSystem) (environ : List (List Nat))
    (input_buffer : List Nat) (line : Line) (i file_dir : Nat) (name : List Nat)
    (hslot : line.clause_list[i * (MAX_ARGC + 1)]? = some (Slot.ptr file_dir))
    (hname : c_string input_buffer file_dir = some name) :
    (fs.f_ok name = true →
      (∀ r : Resolver, i < r.executable_paths.length →
        get_executable_paths_step fs environ input_buffer line r i
          = Except.ok { r with
              executable_paths := r.executable_paths.set i (PathPtr.input file_dir) }) ∧
      (∀ dir_buffer executable_paths r', i < line.clause_count →
        get_executable_paths fs environ input_buffer line dir_buffer executable_paths
          = Except.ok r' →
        r'.executable_paths[i]? = some (PathPtr.input file_dir) ∧
          path_string input_buffer r' i = some name)) ∧
    (fs.f_ok name = false → (name.head? = some 47 ∨ name.head? = some 46) →
      (∀ r : Resolver, get_executable_paths_step fs environ input_buffer line r i
        = Except.error (Halt.ret0 Refusal.file_not_found)) ∧
      (∀ dir_buffer executable_paths r', i < line.clause_count →
        get_executable_paths fs environ input_buffer line dir_buffer executable_paths
          ≠ Except.ok r')) := by
  constructor
  · intro hf
    refine ⟨fun r hi => get_executable_paths_step_existing hslot hname hi hf, ?_⟩
    intro dir_buffer executable_paths r' hi h
    unfold get_executable_paths at h
    obtain ⟨rk, rk', hstep, he, _⟩ :=
      get_executable_paths_loop_steps _ _ _ _ h i (by omega) (by omega)
    obtain ⟨fd, nm, hs, hn, hlen, hcase⟩ := get_executable_paths_step_ok hstep
    rw [hslot] at hs
    injection hs with hs
    injection hs with hs
    subst hs
    rw [hname] at hn
    injection hn with hn
    subst hn
    rcases hcase with ⟨_, hr⟩ | ⟨hf', _⟩
    · have hentry : r'.executable_paths[i]? = some (PathPtr.input file_dir) := by
        rw [he, hr]
        simp only [List.getElem?_set_self hlen]
      refine ⟨hentry, ?_⟩
      unfold path_string
      rw [hentry]
      exact hname
    · rw [hf] at hf'
      cases hf'
  · intro hf hroot
    refine ⟨fun r => get_executable_paths_step_rooted hslot hname hf hroot, ?_⟩
    intro dir_buffer executable_paths r' hi h
    unfold get_executable_paths at h
    obtain ⟨rk, rk', hstep, _, _⟩ :=
      get_executable_paths_loop_steps _ _ _ _ h i (by omega) (by omega)
    rw [get_executable_paths_step_rooted hslot hname hf hroot] at hstep
    cases hstep

/-- C12, on the line `/bin/ls | ./wc`, with the entries `/bin/ls` and `./wc`. -/
theorem existing_name_recorded_unchanged_witness :
    (parsed "/bin/ls | ./wc").2.clause_list[1 * (MAX_ARGC + 1)]? = some (Slot.ptr 10) ∧
    c_string (parsed "/bin/ls | ./wc").1 10 = some (bytes "./wc") ∧
    (get_executable_paths (files ["/bin/ls", "./wc"]) [] (parsed "/bin/ls | ./wc").1
        (parsed "/bin/ls | ./wc").2 Resolver.start.dir_buffer
        Resolver.start.executable_paths).map (fun r => r.executable_paths.take 2)
      = Except.ok [PathPtr.input 0, PathPtr.input 10] ∧
    (((files ["/bin/ls", "./wc"]).f_ok (bytes "./wc") = true →
      (∀ r : Resolver, 1 < r.executable_paths.length →
        get_executable_paths_step (files ["/bin/ls", "./wc"]) []
            (parsed "/bin/ls | ./wc").1 (parsed "/bin/ls | ./wc").2 r 1
          = Except.ok { r with
              executable_paths := r.executable_paths.set 1 (PathPtr.input 10) }) ∧
      (∀ dir_buffer executable_paths r', 1 < (parsed "/bin/ls | ./wc").2.clause_count →
        get_executable_paths (files ["/bin/ls", "./wc"]) [] (parsed "/bin/ls | ./wc").1
            (parsed "/bin/ls | ./wc").2 dir_buffer executable_paths = Except.ok r' →
        r'.executable_paths[1]? = some (PathPtr.input 10) ∧
          path_string (parsed "/bin/ls | ./wc").1 r' 1 = some (bytes "./wc"))) ∧
    ((files ["/bin/ls", "./wc"]).f_ok (bytes "./wc") = false →
      ((bytes "./wc").head? = some 47 ∨ (bytes "./wc").head? = some 46) →
      (∀ r : Resolver, get_executable_paths_step (files ["/bin/ls", "./wc"]) []
          (parsed "/bin/ls | ./wc").1 (parsed "/bin/ls | ./wc").2 r 1
        = Except.error (Halt.ret0 Refusal.file_not_found)) ∧
      (∀ dir_buffer executable_paths r', 1 < (parsed "/bin/ls | ./wc").2.clause_count →
        get_executable_paths (files ["/bin/ls", "./wc"]) [] (parsed "/bin/ls | ./wc").1
            (parsed "/bin/ls | ./wc").2 dir_buffer executable_paths ≠ Except.ok r'))) :=
  ⟨by decide, by decide, by decide,
    existing_name_recorded_unchanged (files ["/bin/ls", "./wc"]) []
      (parsed "/bin/ls | ./wc").1 (parsed "/bin/ls | ./wc").2 1 10 (bytes "./wc")
      (by decide) (by decide)⟩

/-- C12: on the line `/bin/cat`, whose program name begins with `'/'`, with `PATH=/bin` and
no entry `/bin/cat`, `get_executable_paths` returns 0. -/
theorem missing_absolute_name_rejected :
    (parsed "/bin/cat").2.clause_list[0]? = some (Slot.ptr 0) ∧
    c_string (parsed "/bin/cat").1 0 = some (bytes "/bin/cat") ∧
    (bytes "/bin/cat").head? = some 47 ∧
    get_executable_paths (files ["/bin/ls"]) [bytes "PATH=/bin"] (parsed "/bin/cat").1
        (parsed "/bin/cat").2 Resolver.start.dir_buffer Resolver.start.executable_paths
      = Except.error (Halt.ret0 Refusal.file_not_found) := by
  refine ⟨by decide, by decide, by decide, by decide⟩

/-- C13: when the entries of `executable_paths` for the clauses of the line and the
redirection targets point at strings, `check_file_access` returns 1 or 0, and it returns
1 if and only if every recorded executable path is executable, the input target is `NULL`
or exists and is readable, and the output target is `NULL`, or does not exist, or is
writable. -/
theorem check_file_access_iff (fs : FileSystem) (input_buffer : List Nat) (line : Line)
    (r : Resolver)
    (hpaths : ∀ i, i < line.clause_count → ∃ p, path_string input_buffer r i = some p)
    (hin : ∀ f, line.input_file = some f → ∃ s, c_string input_buffer f = some s)
    (hout : ∀ f, line.output_file = some f → ∃ s, c_string input_buffer f = some s) :
    (check_file_access fs input_buffer line r = Except.ok () ↔
      (∀ i, i < line.clause_count → ∀ p, path_string input_buffer r i = some p →
        fs.x_ok p = true) ∧
      (line.input_file = none ∨
        ∃ s, file_name input_buffer line.input_file = some s ∧
          fs.f_ok s = true ∧ fs.r_ok s = true) ∧
      (line.output_file = none ∨
        ∃ s, file_name input_buffer line.output_file = some s ∧
          (fs.f_ok s = false ∨ fs.w_ok s = true))) ∧
    (check_file_access fs input_buffer line r = Except.ok () ∨
      ∃ site, check_file_access fs input_buffer line r = Except.error (Halt.ret0 site)) := by
  obtain ⟨hx1, hx2⟩ := check_executables_ok fs input_buffer r line.clause_count 0
    (fun k _ h => hpaths k (by omega))
  have hx1' : check_executables fs input_buffer r line.clause_count 0 = Except.ok () ↔
      ∀ i, i < line.clause_count → ∀ p, path_string input_buffer r i = some p →
        fs.x_ok p = true :=
    hx1.trans ⟨fun h i hi => h i (by omega) (by omega), fun h k _ hk => h k (by omega)⟩
  unfold check_file_access
  rcases hx2 with hx | hx
  · have hall := hx1'.mp hx
    rw [hx]
    simp only [bind, Except.bind, pure, Except.pure, and_iff_right hall]
    cases hi : line.input_file with
    | none =>
      simp only
      cases ho : line.output_file with
      | none => simp
      | some fo =>
        obtain ⟨so, hso⟩ := hout fo ho
        simp only [hso, file_name, Option.bind]
        by_cases h1 : fs.f_ok so = true <;> by_cases h2 : fs.w_ok so = true <;>
          simp [h1, h2]
    | some fi =>
      obtain ⟨si, hsi⟩ := hin fi hi
      simp only [hsi, file_name, Option.bind]
      by_cases h3 : fs.f_ok si = true
      · by_cases h4 : fs.r_ok si = true
        · cases ho : line.output_file with
          | none => simp [h3, h4]
          | some fo =>
            obtain ⟨so, hso⟩ := hout fo ho
            simp only [hso]
            by_cases h1 : fs.f_ok so = true <;> by_cases h2 : fs.w_ok so = true <;>
              simp [h1, h2, h3, h4]
        · simp [h3, h4]
      · simp [h3]
  · have hnot : ¬ ∀ i, i < line.clause_count → ∀ p, path_string input_buffer r i = some p →
        fs.x_ok p = true := by
      intro h
      rw [hx1'.mpr h] at hx
      cases hx
    rw [hx]
    simp only [bind, Except.bind]
    refine ⟨?_, Or.inr ⟨_, rfl⟩⟩
    constructor
    · intro h
      cases h
    · intro h
      exact absurd h.1 hnot

/-- C13, on the line `sort < in.txt > out.txt` with `/bin/sort` recorded for its clause:
`check_file_access` returns 1 when `in.txt` exists and `out.txt` does not, and returns 0
when `in.txt` does not exist. -/
theorem check_file_access_iff_witness :
    check_file_access (files ["/bin/sort", "in.txt"]) (parsed "sort < in.txt > out.txt").1
        (parsed "sort < in.txt > out.txt").2
        ⟨bytes "/bin/sort" ++ [0], [PathPtr.dir 0], 10⟩ = Except.ok () ∧
    check_file_access (files ["/bin/sort"]) (parsed "sort < in.txt > out.txt").1
        (parsed "sort < in.txt > out.txt").2
        ⟨bytes "/bin/sort" ++ [0], [PathPtr.dir 0], 10⟩
      = Except.error (Halt.ret0 Refusal.input_not_found) ∧
    ((check_file_access (files ["/bin/sort", "in.txt"])
        (parsed "sort < in.txt > out.txt").1 (parsed "sort < in.txt > out.txt").2
        ⟨bytes "/bin/sort" ++ [0], [PathPtr.dir 0], 10⟩ = Except.ok () ↔
      (∀ i, i < (parsed "sort < in.txt > out.txt").2.clause_count →
        ∀ p, path_string (parsed "sort < in.txt > out.txt").1
          ⟨bytes "/bin/sort" ++ [0], [PathPtr.dir 0], 10⟩ i = some p →
        (files ["/bin/sort", "in.txt"]).x_ok p = true) ∧
      ((parsed "sort < in.txt > out.txt").2.input_file = none ∨
        ∃ s, file_name (parsed "sort < in.txt > out.txt").1
            (parsed "sort < in.txt > out.txt").2.input_file = some s ∧
          (files ["/bin/sort", "in.txt"]).f_ok s = true ∧
          (files ["/bin/sort", "in.txt"]).r_ok s = true) ∧
      ((parsed "sort < in.txt > out.txt").2.output_file = none ∨
        ∃ s, file_name (parsed "sort < in.txt > out.txt").1
            (parsed "sort < in.txt > out.txt").2.output_file = some s ∧
          ((files ["/bin/sort", "in.txt"]).f_ok s = false ∨
            (files ["/bin/sort", "in.txt"]).w_ok s = true))) ∧
    (check_file_access (files ["/bin/sort", "in.txt"])
        (parsed "sort < in.txt > out.txt").1 (parsed "sort < in.txt > out.txt").2
        ⟨bytes "/bin/sort" ++ [0], [PathPtr.dir 0], 10⟩ = Except.ok () ∨
      ∃ site, check_file_access (files ["/bin/sort", "in.txt"])
        (parsed "sort < in.txt > out.txt").1 (parsed "sort < in.txt > out.txt").2
        ⟨bytes "/bin/sort" ++ [0], [PathPtr.dir 0], 10⟩
          = Except.error (Halt.ret0 site))) :=
  ⟨by decide, by decide,
    check_file_access_iff (files ["/bin/sort", "in.txt"])
      (parsed "sort < in.txt > out.txt").1 (parsed "sort < in.txt > out.txt").2
      ⟨bytes "/bin/sort" ++ [0], [PathPtr.dir 0], 10⟩
      (by
        intro i hi
        have hi0 : i = 0 := by
          have : (parsed "sort < in.txt > out.txt").2.clause_count = 1 := by decide
          omega
        subst hi0
        exact ⟨bytes "/bin/sort", by decide⟩)
      (by
        intro f hf
        have hf5 : f = 7 := by
          have : (parsed "sort < in.txt > out.txt").2.input_file = some 7 := by decide
          rw [this] at hf
          injection hf with hf
          exact hf.symm
        subst hf5
        exact ⟨bytes "in.txt", by decide⟩)
      (by
        intro f hf
        have hf14 : f = 16 := by
          have : (parsed "sort < in.txt > out.txt").2.output_file = some 16 := by decide
          rw [this] at hf
          injection hf with hf
          exact hf.symm
        subst hf14
        exact ⟨bytes "out.txt", by decide⟩)⟩

/-- C14: on a foreground line of ten clauses, every `fork` succeeding, the parent makes the
calls of the first nine clauses and the tenth `fork`, and then stores the pid of the tenth
child in `pids[9]`, outside `pids`: the run ends there, with no call of `waitpid`. On a line
of nine clauses the parent waits for the nine children in clause order. -/
theorem ten_children_not_awaited :
    run_line { Line.uninit with clause_count := 10 } ⟨fun k => k + 100, fun _ => true⟩
      = ⟨(List.range 9).flatMap (clause_calls 10) ++ [Call.fork], RunEnd.fault⟩ ∧
    (∀ pid, Call.waitpid pid ∉
      (run_line { Line.uninit with clause_count := 10 }
        ⟨fun k => k + 100, fun _ => true⟩).calls) ∧
    run_line { Line.uninit with clause_count := 9 } ⟨fun k => k + 100, fun _ => true⟩
      = ⟨(List.range 9).flatMap (clause_calls 9) ++
          (List.range 9).map (fun k => Call.waitpid (k + 100)), RunEnd.returned 1⟩ := by
  have h : run_line { Line.uninit with clause_count := 10 }
      ⟨fun k => k + 100, fun _ => true⟩
      = ⟨(List.range 9).flatMap (clause_calls 10) ++ [Call.fork], RunEnd.fault⟩ := by decide
  refine ⟨h, ?_, by decide⟩
  intro pid hmem
  rw [h] at hmem
  simp only [List.mem_append, List.mem_flatMap, List.mem_singleton] at hmem
  rcases hmem with ⟨k, _, hk⟩ | hk
  · exact clause_calls_no_waitpid _ _ _ hk
  · cases hk

/-- C15: in the child of clause `i` of a line of at most `MAX_CLAUSES` clauses (the forks
of the clauses before it having succeeded in the parent), when `execve` fails the next call
of the child is `_exit(0)`: the child terminates at once, with exit status 0. -/
theorem failed_execve_exits_with_status_zero (line : Line) (sys : Sys) (i : Nat)
    (hi : i < line.clause_count) (hn : line.clause_count ≤ MAX_CLAUSES)
    (hparent : ∀ k, k < i → sys.fork k ≠ -1 ∧ sys.fork k ≠ 0)
    (hchild : sys.fork i = 0) (hfail : sys.execve i = false) :
    ∃ calls, run_line line sys
      = ⟨calls ++ [Call.execve i, Call.exit 0], RunEnd.exited 0⟩ := by
  have hn10 : line.clause_count ≤ 10 := hn
  obtain ⟨s, hl, _, _, _⟩ := run_line_loop_parent line sys i 0
    ⟨[], List.replicate (MAX_CLAUSES - 1) none⟩ (by simp)
    (by show 0 + i ≤ 9; omega)
    (fun k _ h => hparent k (by omega)) (fun k h => absurd h (by omega))
  obtain ⟨calls, hstep⟩ := run_line_step_child line sys s i
    (by
      by_cases e : i + 1 = line.clause_count
      · exact Or.inl e
      · right
        show i < 9
        omega)
    (by show i < 10; omega) hchild hfail
  refine ⟨calls, ?_⟩
  have hloop : run_line_loop line sys line.clause_count 0
      ⟨[], List.replicate (MAX_CLAUSES - 1) none⟩
      = Except.error ⟨calls ++ [Call.execve i, Call.exit 0], RunEnd.exited 0⟩ := by
    rw [show line.clause_count = i + ((line.clause_count - i - 1) + 1) by omega,
      run_line_loop_add, hl]
    simp only [bind, Except.bind, run_line_loop, Nat.zero_add, hstep]
  unfold run_line
  rw [hloop]

/-- C15, for the only clause of a line, and for the second clause of a line of two. -/
theorem failed_execve_exits_with_status_zero_witness :
    run_line { Line.uninit with clause_count := 1 } ⟨fun _ => 0, fun _ => false⟩
      = ⟨[Call.fork, Call.execve 0, Call.exit 0], RunEnd.exited 0⟩ ∧
    ∃ calls, run_line { Line.uninit with clause_count := 2 }
        ⟨fun k => if k = 0 then 100 else 0, fun _ => false⟩
      = ⟨calls ++ [Call.execve 1, Call.exit 0], RunEnd.exited 0⟩ :=
  ⟨by decide,
    failed_execve_exits_with_status_zero { Line.uninit with clause_count := 2 }
      ⟨fun k => if k = 0 then 100 else 0, fun _ => false⟩ 1 (by decide) (by decide)
      (by
        intro k hk
        have hk0 : k = 0 := by omega
        subst hk0
        decide)
      (by decide) rfl⟩

/-- C15: in the child of the only clause of a line, with `execve` failing, `run_line` ends
in `_exit(0)`: the exit status of the child is zero. -/
theorem child_exit_status_is_zero :
    run_line { Line.uninit with clause_count := 1 } ⟨fun _ => 0, fun _ => false⟩
      = ⟨[Call.fork, Call.execve 0, Call.exit 0], RunEnd.exited 0⟩ ∧
    ¬ ∃ status, status ≠ 0 ∧
      (run_line { Line.uninit with clause_count := 1 } ⟨fun _ => 0, fun _ => false⟩).result
        = RunEnd.exited status := by
  have h : run_line { Line.uninit with clause_count := 1 } ⟨fun _ => 0, fun _ => false⟩
      = ⟨[Call.fork, Call.execve 0, Call.exit 0], RunEnd.exited 0⟩ := by decide
  refine ⟨h, ?_⟩
  rintro ⟨status, hne, hs⟩
  rw [h] at hs
  injection hs with hs
  exact hne hs.symm

/-- C17: on a line of two clauses, when the first `fork` fails the parent returns 0 with
both descriptors of `pipes[0]` open, and when the second `fork` fails it returns 0 with the
read end of `pipes[0]` open. -/
theorem fork_failure_leaves_pipe_open :
    run_line { Line.uninit with clause_count := 2 } ⟨fun _ => -1, fun _ => true⟩
      = ⟨[Call.pipe 0, Call.fork, Call.error], RunEnd.returned 0⟩ ∧
    run_line { Line.uninit with clause_count := 2 }
        ⟨fun k => if k = 0 then 100 else -1, fun _ => true⟩
      = ⟨[Call.pipe 0, Call.fork, Call.close 0 WRITE_END, Call.fork, Call.error],
          RunEnd.returned 0⟩ := by
  constructor <;> decide

/-- C18: the empty line is NUL-terminated and `parse_tokens` returns 1 on it, with the one
token at offset 0; the loop of `parse_line` then ends with `argument_count = 1`, and the
byte its ampersand check reads, `last_argument[last_argument_len - 1]`, is at offset -1 of
the input buffer. -/
theorem empty_line_marker_check_before_buffer :
    (input_line "")[0]? = some 0 ∧
    (parse_tokens (input_line "") Line.uninit).map (fun r => r.2.token_list)
      = Except.ok [0] ∧
    (parse_tokens (input_line "") Line.uninit >>= fun r =>
      parse_line_loop r.2.token_count 0 (parse_line_init r.1 r.2) >>= last_argument_end)
      = Except.ok (1, -1) := by
  refine ⟨by decide, by decide, by decide⟩

/-- C19: on the 256-byte buffer that holds the line of 114 words `a`, one space between
them, the first 226 iterations of `parse_tokens` fill all `TOKEN_SLOTS` entries of
`token_list`, and iteration 226, at the first byte of the last word, writes
`token_list[113]`. -/
theorem token_list_written_past_its_end :
    (read_into zero_buffer ((List.replicate 113 [97, 32]).flatten ++ [97])).length
      = IN_BUFF_SIZE ∧
    (parse_tokens_loop 226 0
      { input_buffer := read_into zero_buffer ((List.replicate 113 [97, 32]).flatten ++ [97]),
        token_list := [], in_word := false, in_operator := false, operator := 0 }).map
      (fun s => (s.token_list.length, s.input_buffer[226]?, s.in_word))
      = Except.ok (TOKEN_SLOTS, some 97, false) ∧
    (parse_tokens_loop 226 0
      { input_buffer := read_into zero_buffer ((List.replicate 113 [97, 32]).flatten ++ [97]),
        token_list := [], in_word := false, in_operator := false, operator := 0 } >>=
      fun s => parse_tokens_step s 226) = Except.error Stop.fault ∧
    parse_tokens (read_into zero_buffer ((List.replicate 113 [97, 32]).flatten ++ [97]))
      Line.uninit = Except.error Stop.fault := by
  refine ⟨by decide, by decide, by decide, by decide⟩

/-- C20: the line `a|b|c|d|e|f|g|h|i|j` parses to ten clauses. In `run_line` on it, every
`fork` succeeding, the first nine iterations fill the nine entries of `pids`, and the tenth
stores at `pids[9]`. -/
theorem tenth_pid_stored_outside_pids :
    (parse (input_line "a|b|c|d|e|f|g|h|i|j") Line.uninit).map (fun r => r.2.clause_count)
      = Except.ok MAX_CLAUSES ∧
    (parse (input_line "a|b|c|d|e|f|g|h|i|j") Line.uninit).map
        (fun r => (run_line_loop r.2 ⟨fun k => k + 100, fun _ => true⟩ 9 0
          ⟨[], List.replicate (MAX_CLAUSES - 1) none⟩).map (fun s => s.pids))
      = Except.ok (Except.ok ((List.range 9).map (fun k => some ((k : Int) + 100)))) ∧
    store ((List.range 9).map (fun k => some ((k : Int) + 100))) 9 (some 109)
      = Except.error Stop.fault ∧
    (parse (input_line "a|b|c|d|e|f|g|h|i|j") Line.uninit).map
        (fun r => run_line r.2 ⟨fun k => k + 100, fun _ => true⟩)
      = Except.ok ⟨(List.range 9).flatMap (clause_calls 10) ++ [Call.fork],
          RunEnd.fault⟩ := by
  refine ⟨by decide, by decide, by decide, by decide⟩

end Mysh
